import Mathlib

/-!
Verification of the sshed packet codec and diff/patch engine.

The development shallowly embeds the Python sources:
  * `packethandler.py` — `PacketHandler` (header codec, chunked stream receipt),
  * `sshed.py` — `Patcher` (hunk parsing and patch application),
  * `sshed_client.py` — `SocketRequestHandler.send_diff` (diff generation via
    `difflib.unified_diff` and the diff-vs-full-file size decision).

Wire data is modelled as lists of abstract byte values (`Nat`); Python `str`
values obtained by UTF-8 decoding are identified with the underlying byte
sequences (single-byte symbols).  Python exceptions are modelled with
`Except`: `SocketClosedError` is distinguished from all other Python
exceptions (`ValueError`, `IndexError`, `TypeError`), which are lumped as
`pyError`.
-/

deriving instance DecidableEq for Except

namespace Sshed

abbrev Byte := Nat
abbrev Bytes := List Byte

def NL : Byte := 10
def CR : Byte := 13
def SP : Byte := 32
def QUOTE : Byte := 34
def COLON : Byte := 58
def DASH : Byte := 45
def PLUS : Byte := 43
def COMMA : Byte := 44
def USCORE : Byte := 95
def DOT : Byte := 46

/-- ASCII bytes of a Lean string literal (used to write byte-string constants). -/
def ascii (s : String) : Bytes := s.data.map (fun c => c.toNat)

/-- Python `bytes.startswith(p)` / `str.startswith(p)`. -/
def startsWithB : Bytes → Bytes → Bool
  | _, [] => true
  | [], _ :: _ => false
  | b :: bs, p :: ps => b == p && startsWithB bs ps

/-- Python `s.find(pat)`: index of the first occurrence of `pat` in `s`
(`none` for Python's `-1`). -/
def findSub (pat : Bytes) : Bytes → Option Nat
  | [] => if pat = [] then some 0 else none
  | b :: rest =>
    if startsWithB (b :: rest) pat then some 0
    else (findSub pat rest).map (· + 1)

/-- Python `s.split(c)` for a single-byte separator (no maxsplit):
always returns at least one piece; `[] ↦ [[]]` as `''.split(c) = ['']`. -/
def splitOnByte (c : Byte) : Bytes → List Bytes
  | [] => [[]]
  | b :: rest =>
    let r := splitOnByte c rest
    if b == c then [] :: r
    else
      match r with
      | [] => [[b]]
      | piece :: more => (b :: piece) :: more

/-- Python `str.isspace` / whitespace stripped by `str.strip` (ASCII part). -/
def isPySpace (b : Byte) : Bool :=
  b == 32 || b == 9 || b == 10 || b == 13 || b == 11 || b == 12

/-- Python `str.strip()`. -/
def pyStrip (s : Bytes) : Bytes :=
  ((s.dropWhile isPySpace).reverse.dropWhile isPySpace).reverse

def isDigit (b : Byte) : Bool := 48 ≤ b && b ≤ 57

/-- After an initial digit: `(digit | '_' digit)*`, Python's underscore rule. -/
def digitsUAux : Bytes → Bool
  | [] => true
  | b :: rest =>
    if isDigit b then digitsUAux rest
    else if b == USCORE then
      match rest with
      | [] => false
      | c :: rest2 => isDigit c && digitsUAux rest2
    else false

/-- A nonempty Python digit run (underscores allowed between digits). -/
def digitsU : Bytes → Bool
  | [] => false
  | b :: rest => isDigit b && digitsUAux rest

/-- Numeric value of a digit run, skipping underscores. -/
def digitsVal (s : Bytes) : Nat :=
  s.foldl (fun acc b => if isDigit b then acc * 10 + (b - 48) else acc) 0

/-- Python `int(s)` on text: `some n` on success, `none` for `ValueError`. -/
def pyInt (s : Bytes) : Option Int :=
  match pyStrip s with
  | [] => none
  | b :: rest =>
    if b == PLUS then
      if digitsU rest then some (Int.ofNat (digitsVal rest)) else none
    else if b == DASH then
      if digitsU rest then some (-(Int.ofNat (digitsVal rest))) else none
    else if digitsU (b :: rest) then some (Int.ofNat (digitsVal (b :: rest)))
    else none

def toLowerB (b : Byte) : Byte := if 65 ≤ b && b ≤ 90 then b + 32 else b

def isInfNan (s : Bytes) : Bool :=
  let t := s.map toLowerB
  t == ascii "inf" || t == ascii "infinity" || t == ascii "nan"

def isELetter (b : Byte) : Bool := b == 101 || b == 69

/-- Mantissa of a Python float literal:
`digits | digits '.' | digits '.' digits | '.' digits`. -/
def mantissaOK (s : Bytes) : Bool :=
  match findSub [DOT] s with
  | none => digitsU s
  | some i =>
    let a := s.take i
    let b := s.drop (i + 1)
    (findSub [DOT] b).isNone &&
      (if a.isEmpty then digitsU b else digitsU a && (b.isEmpty || digitsU b))

def expOK : Bytes → Bool
  | [] => false
  | b :: rest =>
    if b == PLUS || b == DASH then digitsU rest else digitsU (b :: rest)

def floatBody (s : Bytes) : Bool :=
  match s.findIdx? isELetter with
  | none => mantissaOK s
  | some i => mantissaOK (s.take i) && expOK (s.drop (i + 1))

/-- Python `float(s)` acceptance on text (`True` iff no `ValueError`). -/
def isPyFloat (s : Bytes) : Bool :=
  match pyStrip s with
  | [] => false
  | b :: rest =>
    let core := if b == PLUS || b == DASH then rest else b :: rest
    isInfNan core || floatBody core

/-- A decoded header value: the four kinds of §4.2.  The IEEE semantics of
Python floats is outside the embedding; a `float` value records the literal
text it was parsed from (no theorem below compares float values). -/
inductive PyVal where
  | int (n : Int)
  | float (lit : Bytes)
  | bool (b : Bool)
  | str (s : Bytes)
deriving DecidableEq, Repr

/-- Header mapping, as a Python dict: association list in insertion order. -/
abbrev Headers := List (Bytes × PyVal)

/-- Python `d[k] = v`: overwrite in place, append if the key is new. -/
def dictInsert (h : Headers) (k : Bytes) (v : PyVal) : Headers :=
  if h.any (fun p => p.1 == k) then
    h.map (fun p => if p.1 == k then (k, v) else p)
  else h ++ [(k, v)]

/-- Python `d.get(k)`. -/
def dictGet (h : Headers) (k : Bytes) : Option PyVal :=
  (h.find? (fun p => p.1 == k)).map (·.2)

/-- Strip one layer of surrounding double quotes, as
`s[1:-1]` guarded by `startswith('"') and endswith('"')`. -/
def unquoteIf (s : Bytes) : Bytes :=
  if startsWithB s [QUOTE] && s.getLast? == some QUOTE then
    (s.drop 1).dropLast
  else s

/-- One header line body of `PacketHandler._get_headers`: split on the first
colon, strip both parts, unquote the name, then coerce the contents in the
order int → float → bool → (unquoted) string.  `.error` models the
`ValueError` from unpacking a line with no colon. -/
def decodeHeaderLine (header : Bytes) : Except Unit (Bytes × PyVal) :=
  match findSub [COLON] header with
  | none => .error ()
  | some i =>
    let name0 := pyStrip (header.take i)
    let contents := pyStrip (header.drop (i + 1))
    let name := unquoteIf name0
    match pyInt contents with
    | some n => .ok (name, .int n)
    | none =>
      if isPyFloat contents then .ok (name, .float contents)
      else if contents = ascii "True" then .ok (name, .bool true)
      else if contents = ascii "False" then .ok (name, .bool false)
      else .ok (name, .str (unquoteIf contents))

/-- The header-dictionary loop of `PacketHandler._get_headers` applied to the
raw header block (the bytes before the `\n\n` terminator). -/
def decodeHeaderBlock (raw : Bytes) : Except Unit Headers :=
  (splitOnByte NL raw).foldlM
    (fun acc line => (decodeHeaderLine line).map (fun p => dictInsert acc p.1 p.2))
    []

/-- Errors raised by the packet handler: `SocketClosedError` versus any other
Python exception (`ValueError`/`IndexError`/`TypeError`). -/
inductive PacketErr where
  | socketClosed
  | pyError
deriving DecidableEq, Repr

/-- The `recv` loop of `PacketHandler._get_headers`: the socket is modelled
as the list of chunks successive `recv` calls return; an exhausted list (or an
empty chunk) is a closed socket.  Returns the raw header block, the leftover
buffer and the unconsumed chunks. -/
def getHeadersLoop : List Bytes → Bytes → Except PacketErr (Bytes × Bytes × List Bytes)
  | [], buf =>
    match findSub [NL, NL] buf with
    | some i => .ok (buf.take i, buf.drop (i + 2), [])
    | none => .error .socketClosed
  | c :: cs, buf =>
    match findSub [NL, NL] buf with
    | some i => .ok (buf.take i, buf.drop (i + 2), c :: cs)
    | none =>
      if c.isEmpty then .error .socketClosed
      else getHeadersLoop cs (buf ++ c)

/-- `PacketHandler._get_headers` on a connection state. -/
def getHeaders (chunks : List Bytes) (buf : Bytes) :
    Except PacketErr (Headers × Bytes × List Bytes) :=
  match getHeadersLoop chunks buf with
  | .error e => .error e
  | .ok (raw, buf', rest) =>
    match decodeHeaderBlock raw with
    | .error _ => .error .pyError
    | .ok h => .ok (h, buf', rest)

/-- The loop of `PacketHandler._get_bytes` (no `data_file`).  Faithful to the
source, including the `self.buffer[:length]` slice (the slice bound is
`length`, not `length - written`).  Returns `none` when the `while` loop never
runs (Python's implicit `return None` for `length <= 0`). -/
def getBytesLoop (length : Int) :
    List Bytes → Bytes → Int → Bytes → Except PacketErr (Option Bytes × Bytes × List Bytes)
  | [], buf, written, message =>
    if written < length then
      if (buf.length : Int) ≥ length - written then
        .ok (some (message ++ buf.take length.toNat), buf.drop length.toNat, [])
      else .error .socketClosed
    else .ok (none, buf, [])
  | c :: cs, buf, written, message =>
    if written < length then
      if (buf.length : Int) ≥ length - written then
        .ok (some (message ++ buf.take length.toNat), buf.drop length.toNat, c :: cs)
      else if c.isEmpty then .error .socketClosed
      else getBytesLoop length cs c (written + buf.length) (message ++ buf)
    else .ok (none, buf, c :: cs)

/-- `headers.get('Size', 0)` followed by its use as a byte count; a non-integer
`Size` value would make Python's `written < length` comparison raise
`TypeError`. -/
def sizeVal (h : Headers) : Except PacketErr Int :=
  match dictGet h (ascii "Size") with
  | none => .ok 0
  | some (.int n) => .ok n
  | some _ => .error .pyError

/-- `PacketHandler.get` (no `data_file`): headers, then exactly-`Size` body
bytes, over a fresh connection whose socket will deliver `chunks`. -/
def PacketHandler.get (chunks : List Bytes) :
    Except PacketErr (Headers × Option Bytes) :=
  match getHeaders chunks [] with
  | .error e => .error e
  | .ok (h, buf, rest) =>
    match sizeVal h with
    | .error e => .error e
    | .ok n =>
      match getBytesLoop n rest buf 0 [] with
      | .error e => .error e
      | .ok (data, _, _) => .ok (h, data)

/-- Digit-accumulation loop for decimal rendering.  The first argument is
fuel bounding the iteration count (`n` has at most `n` digits for `n ≥ 1`);
when it runs out the loop has already reached `n = 0` and stopped. -/
def natDecGo : Nat → Nat → Bytes → Bytes
  | 0, _, acc => acc
  | fuel + 1, n, acc =>
    if n = 0 then acc else natDecGo fuel (n / 10) ((48 + n % 10) :: acc)

/-- Decimal rendering of a natural number (Python `str` on a nonnegative int). -/
def natDec (n : Nat) : Bytes := if n = 0 then [48] else natDecGo n n []

/-- Python `str` on an int. -/
def intRepr (n : Int) : Bytes :=
  if n < 0 then DASH :: natDec (-n).toNat else natDec n.toNat

def quoteB (s : Bytes) : Bytes := QUOTE :: s ++ [QUOTE]

/-- `PacketHandler._generate_header_bytes`: quote names with leading/trailing
whitespace; quote string contents that have leading/trailing whitespace, or
that parse as a float, or that equal `True`/`False`; render non-strings with
`str`.  `.error` models the `IndexError` on an empty name or empty string
contents.  (`str` on a Python float produces its canonical repr; the model
emits the recorded literal, which no theorem below relies on.) -/
def generateHeaderBytes (name : Bytes) (v : PyVal) : Except Unit Bytes := do
  let qname ← match name with
    | [] => Except.error ()
    | b :: _ =>
      Except.ok (if isPySpace b || isPySpace (name.getLastD 0) then quoteB name else name)
  let cval ← match v with
    | .str s =>
      match s with
      | [] => Except.error ()
      | b :: _ =>
        let s1 := if isPySpace b || isPySpace (s.getLastD 0) then quoteB s else s
        let s2 := if isPyFloat s1 then quoteB s1 else s1
        let s3 := if s2 = ascii "True" || s2 = ascii "False" then quoteB s2 else s2
        Except.ok s3
    | .int n => Except.ok (intRepr n)
    | .float lit => Except.ok lit
    | .bool b => Except.ok (if b then ascii "True" else ascii "False")
  .ok (qname ++ COLON :: SP :: (cval ++ [NL]))

/-- The header lines `PacketHandler.send` writes for a mapping, concatenated. -/
def encodeHeaderBlock (h : Headers) : Except Unit Bytes := do
  let lines ← h.mapM (fun p => generateHeaderBytes p.1 p.2)
  .ok lines.flatten

/-- The header-mutation effect of `PacketHandler.send`: `headers['Size']` is
set to the byte length of the contents (`0` for `None`; a file-like object
contributes its length via seek/tell the same way). -/
def sendSetSize (headers : Headers) (contents : Option Bytes) : Headers :=
  match contents with
  | none => dictInsert headers (ascii "Size") (.int 0)
  | some c => dictInsert headers (ascii "Size") (.int c.length)

/-- Encoding a header mapping with `PacketHandler.send`'s per-entry
`_generate_header_bytes` (plus the blank-line terminator `send` writes) and
decoding the resulting wire bytes with `PacketHandler._get_headers`. -/
def encodeThenDecode (h : Headers) : Except PacketErr Headers :=
  match encodeHeaderBlock h with
  | .error _ => .error .pyError
  | .ok w => (getHeaders [] (w ++ [NL])).map (fun r => r.1)

/-! ## The Patcher (`sshed.py`) -/

/-- Errors of `Patcher.patch`: `MalformedDiff` versus any other Python
exception (`IndexError`/`ValueError` from hunk-header parsing). -/
inductive PatchErr where
  | malformedDiff
  | pyError
deriving DecidableEq, Repr

/-- `line.startswith((b'---', b'+++'))` in `Patcher._get_hunks`. -/
def isFileIdLine (l : Bytes) : Bool :=
  startsWithB l (ascii "---") || startsWithB l (ascii "+++")

/-- `line.startswith(b'@@')` in `Patcher._get_hunks`. -/
def isHunkStart (l : Bytes) : Bool := startsWithB l (ascii "@@")

/-- The loop of `Patcher._get_hunks` (`diff.pop(0)` becomes list recursion):
drop `---`/`+++` lines, start a new hunk at `@@` (closing a nonempty current
hunk), append every other line to the current hunk, close the final hunk at
end of input. -/
def getHunksGo : List Bytes → List Bytes → List (List Bytes) → List (List Bytes)
  | [], hunk, hunks => if hunk.isEmpty then hunks else hunks ++ [hunk]
  | l :: rest, hunk, hunks =>
    if isFileIdLine l then
      getHunksGo rest hunk hunks
    else if isHunkStart l then
      if hunk.isEmpty then getHunksGo rest [l] hunks
      else getHunksGo rest [l] (hunks ++ [hunk])
    else getHunksGo rest (hunk ++ [l]) hunks

/-- `Patcher._get_hunks`. -/
def getHunks (diff : List Bytes) : List (List Bytes) := getHunksGo diff [] []

/-- A read cursor over raw file content (models the `original` file object). -/
structure PFile where
  content : Bytes
  pos : Nat
deriving DecidableEq, Repr

/-- `file.readline()`: bytes up to and including the next newline, the rest of
the file if there is none, `b''` at EOF. -/
def PFile.readline (f : PFile) : Bytes × PFile :=
  let rest := f.content.drop f.pos
  match findSub [NL] rest with
  | some i => (rest.take (i + 1), ⟨f.content, f.pos + i + 1⟩)
  | none => (rest, ⟨f.content, f.content.length⟩)

/-- `file.readlines()` flattened back to bytes: everything after the cursor. -/
def PFile.readrest (f : PFile) : Bytes := f.content.drop f.pos

/-- Python `bytes.split()` with no argument: maximal nonempty runs between
whitespace. -/
def pySplitWs (s : Bytes) : List Bytes :=
  (s.foldr
    (fun b acc =>
      if isPySpace b then [] :: acc
      else
        match acc with
        | [] => [[b]]
        | w :: ws => (b :: w) :: ws)
    []).filter (fun w => !w.isEmpty)

/-- Hunk-header parsing in `Patcher.patch`: `header.split()[1][1:]`, cut at
the first comma, then `int(...)`.  A missing token or unparsable number is a
Python `IndexError`/`ValueError`. -/
def parseStart (header : Bytes) : Except PatchErr Int :=
  match (pySplitWs header).get? 1 with
  | none => .error .pyError
  | some p =>
    let s := p.drop 1
    let s :=
      match findSub [COMMA] s with
      | some i => s.take i
      | none => s
    match pyInt s with
    | some n => .ok n
    | none => .error .pyError

/-- The `while line_number < start_line` copy loop, run for a fixed number of
iterations (each iteration reads one line and writes it to the output). -/
def copyLoop (f : PFile) (out : Bytes) : Nat → PFile × Bytes
  | 0 => (f, out)
  | n + 1 =>
    let (line, f') := f.readline
    copyLoop f' (out ++ line) n

/-- The `for line in hunk[1:]` loop of `Patcher.patch`: removed lines must
match the next original line (else `MalformedDiff`), context lines must match
and are copied, added lines are written, anything else is silently skipped. -/
def processHunkLines :
    PFile → Int → Bytes → List Bytes → Except PatchErr (PFile × Int × Bytes)
  | f, lineNo, out, [] => .ok (f, lineNo, out)
  | f, lineNo, out, l :: rest =>
    if startsWithB l [DASH] then
      let (orig, f') := f.readline
      if orig ≠ l.drop 1 then .error .malformedDiff
      else processHunkLines f' (lineNo + 1) out rest
    else if startsWithB l [SP] then
      let (orig, f') := f.readline
      if orig ≠ l.drop 1 then .error .malformedDiff
      else processHunkLines f' (lineNo + 1) (out ++ orig) rest
    else if startsWithB l [PLUS] then
      processHunkLines f lineNo (out ++ l.drop 1) rest
    else processHunkLines f lineNo out rest

/-- One iteration of the `for hunk in self.hunks` loop of `Patcher.patch`. -/
def processHunk (f : PFile) (lineNo : Int) (out : Bytes) (hunk : List Bytes) :
    Except PatchErr (PFile × Int × Bytes) :=
  match hunk with
  | [] => .error .pyError
  | header :: body => do
    let start ← parseStart header
    let (f', out') := copyLoop f out (start - lineNo).toNat
    let lineNo' := if lineNo < start then start else lineNo
    processHunkLines f' lineNo' out' body

def patchHunks :
    PFile → Int → Bytes → List (List Bytes) → Except PatchErr (PFile × Int × Bytes)
  | f, lineNo, out, [] => .ok (f, lineNo, out)
  | f, lineNo, out, h :: rest => do
    let (f', l', o') ← processHunk f lineNo out h
    patchHunks f' l' o' rest

/-- `Patcher.patch` on an original file's raw content and a list of diff
lines: parse the hunks, apply them in order, then copy the remaining original
lines.  The result is the bytes written to the output. -/
def Patcher.patch (original : Bytes) (diff : List Bytes) : Except PatchErr Bytes := do
  let (f, _, out) ← patchHunks ⟨original, 0⟩ 1 [] (getHunks diff)
  .ok (out ++ f.readrest)

/-- Python `bytes.splitlines(keepends=True)`: split after `\n`, `\r\n`, or a
lone `\r`. -/
def splitLinesGo : Bytes → Bytes → List Bytes
  | acc, [] => if acc.isEmpty then [] else [acc]
  | acc, b :: rest =>
    if b == NL then (acc ++ [NL]) :: splitLinesGo [] rest
    else if b == CR then
      match rest with
      | [] => [acc ++ [CR]]
      | c :: rest2 =>
        if c == NL then (acc ++ [CR, NL]) :: splitLinesGo [] rest2
        else (acc ++ [CR]) :: splitLinesGo [] (c :: rest2)
    else splitLinesGo (acc ++ [b]) rest

/-- `bytes.splitlines(keepends=True)`. -/
def splitLinesKeep (s : Bytes) : List Bytes := splitLinesGo [] s

/-! ## difflib (`SequenceMatcher(None, a, b)` and `unified_diff`, as used by
`SocketRequestHandler.send_diff`) -/

abbrev Line := Bytes

/-- Ascending occurrence indices of `x` in `b` (`b2j` before the autojunk
purge). -/
def occList (b : List Line) (x : Line) : List Nat :=
  (List.range b.length).filter (fun j => b.get? j == some x)

/-- The autojunk rule of `SequenceMatcher.__chain_b`: with `isjunk = None`,
an element is purged from `b2j` iff `len(b) >= 200` and it occurs more than
`len(b) // 100 + 1` times. -/
def isPopular (b : List Line) (x : Line) : Bool :=
  b.length ≥ 200 && (occList b x).length > b.length / 100 + 1

/-- `self.b2j.get(x, [])`. -/
def b2j (b : List Line) (x : Line) : List Nat :=
  if isPopular b x then [] else occList b x

/-- `j2len.get(j, 0)` on the dict-as-association-list. -/
def dGet (d : List (Nat × Nat)) (j : Nat) : Nat :=
  (((d.find? (fun p => p.1 == j)).map (·.2)).getD 0)

/-- The inner `for j in b2j.get(a[i], nothing)` loop of
`find_longest_match`: `continue` below `blo`, `break` at `bhi` (the index
list is ascending), extend the chain length from the previous row, track the
best.  `j2len.get(j-1, 0)` reads Python's `-1` for `j = 0`, which is absent
from the dict, hence the `j = 0` case. -/
def flmInner (blo bhi i : Nat) :
    List Nat → List (Nat × Nat) → List (Nat × Nat) → Nat × Nat × Nat →
    List (Nat × Nat) × (Nat × Nat × Nat)
  | [], _, newRow, best => (newRow, best)
  | j :: js, old, newRow, best =>
    if j < blo then flmInner blo bhi i js old newRow best
    else if j ≥ bhi then (newRow, best)
    else
      let k := (if j = 0 then 0 else dGet old (j - 1)) + 1
      let newRow' := (j, k) :: newRow
      let best' := if k > best.2.2 then (i + 1 - k, j + 1 - k, k) else best
      flmInner blo bhi i js old newRow' best'

/-- The outer `for i in range(alo, ahi)` loop of `find_longest_match`. -/
def flmOuter (a b : List Line) (blo bhi : Nat) :
    List Nat → List (Nat × Nat) → Nat × Nat × Nat → Nat × Nat × Nat
  | [], _, best => best
  | i :: is', j2len, best =>
    let r := flmInner blo bhi i (b2j b (a.getD i [])) j2len [] best
    flmOuter a b blo bhi is' r.1 r.2

/-- The first (non-junk) left-extension `while` loop of `find_longest_match`.
The fuel argument bounds the iteration count; it is instantiated with the
initial `besti`, and each iteration decrements `besti`, so when fuel reaches
`0` we have `besti = 0` and the loop guard `besti > alo` is false anyway. -/
def extLeft (a b : List Line) (alo blo : Nat) :
    Nat → Nat → Nat → Nat → Nat × Nat × Nat
  | 0, besti, bestj, bestsize => (besti, bestj, bestsize)
  | fuel + 1, besti, bestj, bestsize =>
    if besti > alo ∧ bestj > blo ∧ a.getD (besti - 1) [] = b.getD (bestj - 1) [] then
      extLeft a b alo blo fuel (besti - 1) (bestj - 1) (bestsize + 1)
    else (besti, bestj, bestsize)

/-- The first (non-junk) right-extension `while` loop of `find_longest_match`.
The fuel argument bounds the iteration count; it is instantiated with `ahi`,
and each iteration increments `besti + bestsize` while the guard keeps it
below `ahi`, so with `ahi - (besti + bestsize) ≤ fuel` the guard is false
whenever fuel reaches `0`. -/
def extRight (a b : List Line) (ahi bhi : Nat) :
    Nat → Nat → Nat → Nat → Nat
  | 0, _, _, bestsize => bestsize
  | fuel + 1, besti, bestj, bestsize =>
    if besti + bestsize < ahi ∧ bestj + bestsize < bhi ∧
        a.getD (besti + bestsize) [] = b.getD (bestj + bestsize) [] then
      extRight a b ahi bhi fuel besti bestj (bestsize + 1)
    else bestsize

/-- `SequenceMatcher.find_longest_match(alo, ahi, blo, bhi)`.  With
`isjunk = None` the junk set `bjunk` is empty, so the second pair of
(junk-eating) extension loops never iterates and is omitted. -/
def findLongestMatch (a b : List Line) (alo ahi blo bhi : Nat) : Nat × Nat × Nat :=
  let best := flmOuter a b blo bhi (List.range' alo (ahi - alo)) [] (alo, blo, 0)
  let e := extLeft a b alo blo best.1 best.1 best.2.1 best.2.2
  (e.1, e.2.1, extRight a b ahi bhi ahi e.1 e.2.1 e.2.2)

abbrev Rect := Nat × Nat × Nat × Nat
abbrev Block := Nat × Nat × Nat

def rectSize : Rect → Nat
  | (alo, ahi, blo, bhi) => (ahi - alo) + (bhi - blo) + 1

def queueSize : List Rect → Nat
  | [] => 0
  | r :: rest => rectSize r + queueSize rest

/-- Invariant of a `j2len` row: entries lie at/above `blo`, chain lengths are
positive, bounded by the number of rows processed, and a chain of length `k`
ending at `j` starts at `j + 1 - k ≥ blo`. -/
def RowOK (blo t : Nat) (row : List (Nat × Nat)) : Prop :=
  ∀ p ∈ row, blo ≤ p.1 ∧ 1 ≤ p.2 ∧ p.2 ≤ t ∧ p.2 + blo ≤ p.1 + 1

/-- Bounds on the running best match of `find_longest_match`. -/
def BestOK (alo blo A B bi bj bs : Nat) : Prop :=
  alo ≤ bi ∧ blo ≤ bj ∧ bi + bs ≤ A ∧ bj + bs ≤ B

theorem dGet_cases (d : List (Nat × Nat)) (j : Nat) :
    dGet d j = 0 ∨ ∃ p ∈ d, p.1 = j ∧ p.2 = dGet d j := by
  unfold dGet
  cases h : d.find? (fun p => p.1 == j) with
  | none => simp
  | some p =>
    right
    refine ⟨p, List.mem_of_find?_eq_some h, ?_, by simp⟩
    have := List.find?_some h
    simpa using this

theorem flmInner_ok (alo A B blo bhi i t : Nat) (js : List Nat)
    (old : List (Nat × Nat)) (hold : RowOK blo t old)
    (ht : i = alo + t) (hiA : i + 1 ≤ A) (hbB : bhi ≤ B) :
    ∀ (newRow : List (Nat × Nat)) (bi bj bs : Nat)
      (row' : List (Nat × Nat)) (bi' bj' bs' : Nat),
      flmInner blo bhi i js old newRow (bi, bj, bs) = (row', bi', bj', bs') →
      RowOK blo (t + 1) newRow → BestOK alo blo A B bi bj bs →
      RowOK blo (t + 1) row' ∧ BestOK alo blo A B bi' bj' bs' := by
  induction js with
  | nil =>
    intro newRow bi bj bs row' bi' bj' bs' feq hnew hbest
    rw [flmInner] at feq
    obtain ⟨h1, h2⟩ := Prod.mk.injEq .. ▸ feq
    obtain ⟨h2, h3⟩ := Prod.mk.injEq .. ▸ h2
    obtain ⟨h3, h4⟩ := Prod.mk.injEq .. ▸ h3
    subst h1; subst h2; subst h3; subst h4
    exact ⟨hnew, hbest⟩
  | cons j js ih =>
    intro newRow bi bj bs row' bi' bj' bs' feq hnew hbest
    rw [flmInner] at feq
    by_cases h1 : j < blo
    · rw [if_pos h1] at feq
      exact ih newRow bi bj bs row' bi' bj' bs' feq hnew hbest
    · rw [if_neg h1] at feq
      by_cases h2 : j ≥ bhi
      · rw [if_pos h2] at feq
        obtain ⟨g1, g2⟩ := Prod.mk.injEq .. ▸ feq
        obtain ⟨g2, g3⟩ := Prod.mk.injEq .. ▸ g2
        obtain ⟨g3, g4⟩ := Prod.mk.injEq .. ▸ g3
        subst g1; subst g2; subst g3; subst g4
        exact ⟨hnew, hbest⟩
      · rw [if_neg h2] at feq
        dsimp only at feq
        have hjb : blo ≤ j := Nat.le_of_not_lt h1
        have hjhi : j < bhi := Nat.lt_of_not_le h2
        have hk1 : (if j = 0 then 0 else dGet old (j - 1)) + 1 ≤ t + 1 ∧
            (if j = 0 then 0 else dGet old (j - 1)) + 1 + blo ≤ j + 1 := by
          by_cases hj0 : j = 0
          · rw [if_pos hj0]; omega
          · rw [if_neg hj0]
            rcases dGet_cases old (j - 1) with hz | ⟨p, hp, hp1, hp2⟩
            · rw [hz]; omega
            · have := hold p hp
              omega
        obtain ⟨hbest1, hbest2, hbest3, hbest4⟩ := hbest
        have hnew' : RowOK blo (t + 1)
            ((j, (if j = 0 then 0 else dGet old (j - 1)) + 1) :: newRow) := by
          intro p hp
          rcases List.mem_cons.mp hp with h | h
          · subst h
            exact ⟨hjb, Nat.le_add_left 1 _, hk1.1, hk1.2⟩
          · exact hnew p h
        by_cases hgt : (if j = 0 then 0 else dGet old (j - 1)) + 1 > bs
        · rw [if_pos hgt] at feq
          exact ih _ _ _ _ _ _ _ _ feq hnew'
            ⟨by omega, by omega, by omega, by omega⟩
        · rw [if_neg hgt] at feq
          exact ih _ _ _ _ _ _ _ _ feq hnew'
            ⟨hbest1, hbest2, hbest3, hbest4⟩

theorem flmOuter_ok (a b : List Line) (blo bhi alo A B : Nat) (hbB : bhi ≤ B) :
    ∀ (cnt t : Nat) (row : List (Nat × Nat)) (bi bj bs x y z : Nat),
      flmOuter a b blo bhi (List.range' (alo + t) cnt) row (bi, bj, bs) = (x, y, z) →
      RowOK blo t row → BestOK alo blo A B bi bj bs → alo + t + cnt ≤ A →
      BestOK alo blo A B x y z := by
  intro cnt
  induction cnt with
  | zero =>
    intro t row bi bj bs x y z feq _ hbest _
    rw [List.range'] at feq
    rw [flmOuter] at feq
    obtain ⟨h1, h2⟩ := Prod.mk.injEq .. ▸ feq
    obtain ⟨h2, h3⟩ := Prod.mk.injEq .. ▸ h2
    subst h1; subst h2; subst h3
    exact hbest
  | succ cnt ih =>
    intro t row bi bj bs x y z feq hrow hbest hA
    rw [List.range'_succ, flmOuter] at feq
    rcases hr : flmInner blo bhi (alo + t) (b2j b (a.getD (alo + t) [])) row []
        (bi, bj, bs) with ⟨row2, bi2, bj2, bs2⟩
    rw [hr] at feq
    dsimp only at feq
    have hstep := flmInner_ok alo A B blo bhi (alo + t) t
      (b2j b (a.getD (alo + t) [])) row hrow rfl (by omega) hbB
      [] bi bj bs row2 bi2 bj2 bs2 hr (by intro p hp; cases hp) hbest
    have : alo + (t + 1) + cnt ≤ A := by omega
    have hrng : alo + t + 1 = alo + (t + 1) := by omega
    rw [hrng] at feq
    exact ih (t + 1) row2 bi2 bj2 bs2 x y z feq hstep.1 hstep.2 this

theorem extLeft_ok (a b : List Line) (alo blo A B : Nat) :
    ∀ fuel besti bestj bestsize x y z,
      extLeft a b alo blo fuel besti bestj bestsize = (x, y, z) →
      BestOK alo blo A B besti bestj bestsize → BestOK alo blo A B x y z := by
  intro fuel
  induction fuel with
  | zero =>
    intro besti bestj bestsize x y z heq hb
    rw [extLeft] at heq
    obtain ⟨g1, g2⟩ := Prod.mk.injEq .. ▸ heq
    obtain ⟨g2, g3⟩ := Prod.mk.injEq .. ▸ g2
    subst g1; subst g2; subst g3
    exact hb
  | succ fuel ih =>
    intro besti bestj bestsize x y z heq hb
    obtain ⟨h1, h2, h3, h4⟩ := hb
    rw [extLeft] at heq
    split at heq
    · next h =>
      exact ih _ _ _ _ _ _ heq ⟨by omega, by omega, by omega, by omega⟩
    · obtain ⟨g1, g2⟩ := Prod.mk.injEq .. ▸ heq
      obtain ⟨g2, g3⟩ := Prod.mk.injEq .. ▸ g2
      subst g1; subst g2; subst g3
      exact ⟨h1, h2, h3, h4⟩

theorem extRight_ok (a b : List Line) (A B ahi bhi : Nat)
    (hA : ahi ≤ A) (hB : bhi ≤ B) :
    ∀ fuel besti bestj bestsize z,
      extRight a b ahi bhi fuel besti bestj bestsize = z →
      besti + bestsize ≤ A → bestj + bestsize ≤ B →
      besti + z ≤ A ∧ bestj + z ≤ B := by
  intro fuel
  induction fuel with
  | zero =>
    intro besti bestj bestsize z heq hsA hsB
    rw [extRight] at heq
    subst heq; exact ⟨hsA, hsB⟩
  | succ fuel ih =>
    intro besti bestj bestsize z heq hsA hsB
    rw [extRight] at heq
    split at heq
    · next h => exact ih besti bestj (bestsize + 1) z heq (by omega) (by omega)
    · subst heq; exact ⟨hsA, hsB⟩

/-- Bounds of `find_longest_match`, used for the termination of
`get_matching_blocks` and for the structure of the matching blocks. -/
theorem flm_bounds (a b : List Line) (alo ahi blo bhi i j k : Nat)
    (heq : findLongestMatch a b alo ahi blo bhi = (i, j, k)) :
    alo ≤ i ∧ blo ≤ j ∧ i + k ≤ alo + (ahi - alo) ∧ j + k ≤ blo + (bhi - blo) := by
  rw [findLongestMatch] at heq
  rcases hF : flmOuter a b blo bhi (List.range' alo (ahi - alo)) [] (alo, blo, 0)
    with ⟨bi, bj, bs⟩
  rw [hF] at heq
  dsimp only at heq
  rcases hL : extLeft a b alo blo bi bi bj bs with ⟨x, y, z⟩
  rw [hL] at heq
  dsimp only at heq
  obtain ⟨g1, g2⟩ := Prod.mk.injEq .. ▸ heq
  obtain ⟨g2, g3⟩ := Prod.mk.injEq .. ▸ g2
  subst g1; subst g2
  have h0 : BestOK alo blo (alo + (ahi - alo)) (blo + (bhi - blo)) bi bj bs := by
    have hF' : flmOuter a b blo bhi (List.range' (alo + 0) (ahi - alo)) []
        (alo, blo, 0) = (bi, bj, bs) := by
      rw [Nat.add_zero]; exact hF
    exact flmOuter_ok a b blo bhi alo (alo + (ahi - alo)) (blo + (bhi - blo))
      (by omega) (ahi - alo) 0 [] alo blo 0 bi bj bs hF'
      (by intro p hp; cases hp) ⟨Nat.le_refl _, Nat.le_refl _, by omega, by omega⟩
      (by omega)
  have hLok : BestOK alo blo (alo + (ahi - alo)) (blo + (bhi - blo)) x y z :=
    extLeft_ok a b alo blo (alo + (ahi - alo)) (blo + (bhi - blo)) bi bi bj bs x y z hL h0
  obtain ⟨hx, hy, hxz, hyz⟩ := hLok
  have hR := extRight_ok a b (alo + (ahi - alo)) (blo + (bhi - blo)) ahi bhi
    (by omega) (by omega) ahi x y z k g3 hxz hyz
  exact ⟨hx, hy, hR.1, hR.2⟩

/-- The `while queue` loop of `get_matching_blocks`.  `queue.pop()` takes the
most recently appended rectangle; the stack is kept top-first, so Python's
`append(left); append(right)` followed by `pop()` is `right :: left :: rest`
here.  The fuel argument bounds the iteration count: by `flm_bounds` every
iteration strictly decreases `queueSize`, so fuel `queueSize q + 1` makes
the queue empty out before fuel does (see `mbLoop_fuel_stable`). -/
def mbLoop (a b : List Line) : Nat → List Rect → List Block → List Block
  | _, [], acc => acc
  | 0, _ :: _, acc => acc
  | fuel + 1, (alo, ahi, blo, bhi) :: rest, acc =>
    match findLongestMatch a b alo ahi blo bhi with
    | (i, j, k) =>
      if k ≠ 0 then
        if i + k < ahi ∧ j + k < bhi then
          if alo < i ∧ blo < j then
            mbLoop a b fuel
              ((i + k, ahi, j + k, bhi) :: (alo, i, blo, j) :: rest)
              (acc ++ [(i, j, k)])
          else mbLoop a b fuel ((i + k, ahi, j + k, bhi) :: rest) (acc ++ [(i, j, k)])
        else
          if alo < i ∧ blo < j then
            mbLoop a b fuel ((alo, i, blo, j) :: rest) (acc ++ [(i, j, k)])
          else mbLoop a b fuel rest (acc ++ [(i, j, k)])
      else mbLoop a b fuel rest acc

/-- Python tuple `<` on a `(i, j, size)` triple. -/
def blockLt (x y : Block) : Bool :=
  decide (x.1 < y.1) ||
    (x.1 == y.1 && (decide (x.2.1 < y.2.1) ||
      (x.2.1 == y.2.1 && decide (x.2.2 < y.2.2))))

def sortInsert (x : Block) : List Block → List Block
  | [] => [x]
  | y :: ys => if blockLt y x then y :: sortInsert x ys else x :: y :: ys

/-- `matching_blocks.sort()`: a stable sort by the tuple order.  (Insertion
sort here; `list.sort` is specified as a stable sort and all stable sorts of
a list agree — moreover the sorted blocks have pairwise distinct `i`, so
every sort of them agrees.) -/
def sortBlocks : List Block → List Block
  | [] => []
  | x :: xs => sortInsert x (sortBlocks xs)

/-- The adjacent-block collapsing loop of `get_matching_blocks`, starting
from `i1 = j1 = k1 = 0`. -/
def collapseGo : Nat → Nat → Nat → List Block → List Block
  | i1, j1, k1, [] => if k1 ≠ 0 then [(i1, j1, k1)] else []
  | i1, j1, k1, (i2, j2, k2) :: rest =>
    if i1 + k1 = i2 ∧ j1 + k1 = j2 then collapseGo i1 j1 (k1 + k2) rest
    else if k1 ≠ 0 then (i1, j1, k1) :: collapseGo i2 j2 k2 rest
    else collapseGo i2 j2 k2 rest

/-- `SequenceMatcher.get_matching_blocks`. -/
def getMatchingBlocks (a b : List Line) : List Block :=
  let blocks :=
    sortBlocks (mbLoop a b (a.length + b.length + 2) [(0, a.length, 0, b.length)] [])
  collapseGo 0 0 0 blocks ++ [(a.length, b.length, 0)]

inductive Tag where
  | replace
  | delete
  | insert
  | equal
deriving DecidableEq, Repr

/-- An opcode `(tag, i1, i2, j1, j2)`. -/
structure Op where
  tag : Tag
  i1 : Nat
  i2 : Nat
  j1 : Nat
  j2 : Nat
deriving DecidableEq, Repr

/-- The loop of `get_opcodes`. -/
def opcodesGo : Nat → Nat → List Block → List Op
  | _, _, [] => []
  | i, j, (ai, bj, size) :: rest =>
    let front : List Op :=
      if i < ai ∧ j < bj then [⟨.replace, i, ai, j, bj⟩]
      else if i < ai then [⟨.delete, i, ai, j, bj⟩]
      else if j < bj then [⟨.insert, i, ai, j, bj⟩]
      else []
    let eqs : List Op :=
      if size ≠ 0 then [⟨.equal, ai, ai + size, bj, bj + size⟩] else []
    front ++ eqs ++ opcodesGo (ai + size) (bj + size) rest

/-- `SequenceMatcher.get_opcodes`. -/
def getOpcodes (a b : List Line) : List Op := opcodesGo 0 0 (getMatchingBlocks a b)

/-- `get_grouped_opcodes`: trim a leading equal opcode to `n` lines. -/
def fixFirst (n : Nat) : List Op → List Op
  | [] => []
  | op :: rest =>
    if op.tag = .equal then
      { op with i1 := max op.i1 (op.i2 - n), j1 := max op.j1 (op.j2 - n) } :: rest
    else op :: rest

/-- `get_grouped_opcodes`: trim a trailing equal opcode to `n` lines. -/
def fixLast (n : Nat) : List Op → List Op
  | [] => []
  | [op] =>
    if op.tag = .equal then
      [{ op with i2 := min op.i2 (op.i1 + n), j2 := min op.j2 (op.j1 + n) }]
    else [op]
  | op :: rest => op :: fixLast n rest

/-- The final `if group and not (len(group)==1 and group[0][0] == 'equal')`. -/
def groupFinal (group : List Op) : Bool :=
  match group with
  | [] => false
  | [op] => op.tag ≠ .equal
  | _ => true

/-- The grouping loop of `get_grouped_opcodes` (a generator in Python; here
the list of yielded groups is accumulated). -/
def groupLoop (n : Nat) : List Op → List Op → List (List Op) → List (List Op)
  | [], group, acc => if groupFinal group then acc ++ [group] else acc
  | op :: rest, group, acc =>
    if op.tag = .equal ∧ op.i2 - op.i1 > n + n then
      groupLoop n rest
        [{ op with i1 := max op.i1 (op.i2 - n), j1 := max op.j1 (op.j2 - n) }]
        (acc ++
          [group ++ [{ op with i2 := min op.i2 (op.i1 + n), j2 := min op.j2 (op.j1 + n) }]])
    else groupLoop n rest (group ++ [op]) acc

/-- `SequenceMatcher.get_grouped_opcodes(n)`. -/
def groupedOpcodes (a b : List Line) (n : Nat) : List (List Op) :=
  let codes := getOpcodes a b
  let codes := if codes.isEmpty then [⟨.equal, 0, 1, 0, 1⟩] else codes
  groupLoop n (fixLast n (fixFirst n codes)) [] []

/-- `difflib._format_range_unified`. -/
def formatRangeUnified (start stop : Nat) : Bytes :=
  if stop - start = 1 then natDec (start + 1)
  else
    let beginning := if stop - start = 0 then start else start + 1
    natDec beginning ++ COMMA :: natDec (stop - start)

/-- The `@@ -r +r @@` line of a group (`lineterm='\n'`). -/
def hunkHeader (g : List Op) : Bytes :=
  let first := g.headD ⟨.equal, 0, 0, 0, 0⟩
  let last := g.getLastD ⟨.equal, 0, 0, 0, 0⟩
  ascii "@@ -" ++ formatRangeUnified first.i1 last.i2 ++ ascii " +" ++
    formatRangeUnified first.j1 last.j2 ++ ascii " @@" ++ [NL]

/-- Python slice `xs[lo:hi]` (for `0 ≤ lo ≤ hi`). -/
def sliceL (xs : List Line) (lo hi : Nat) : List Line := (xs.drop lo).take (hi - lo)

/-- The tagged content lines `unified_diff` yields for one opcode. -/
def opLines (a b : List Line) (op : Op) : List Bytes :=
  match op.tag with
  | .equal => (sliceL a op.i1 op.i2).map (fun l => SP :: l)
  | .replace =>
    (sliceL a op.i1 op.i2).map (fun l => DASH :: l) ++
      (sliceL b op.j1 op.j2).map (fun l => PLUS :: l)
  | .delete => (sliceL a op.i1 op.i2).map (fun l => DASH :: l)
  | .insert => (sliceL b op.j1 op.j2).map (fun l => PLUS :: l)

/-- All lines `unified_diff` yields for one group. -/
def groupLines (a b : List Line) (g : List Op) : List Bytes :=
  hunkHeader g :: (g.map (opLines a b)).flatten

/-- `difflib.unified_diff(a, b)` with the defaults `send_diff` uses
(`fromfile = tofile = ''`, `n = 3`, `lineterm = '\n'`), as a list of lines.
The two `---`/`+++` header lines appear iff at least one group is yielded. -/
def unifiedDiff (a b : List Line) : List Bytes :=
  let groups := groupedOpcodes a b 3
  if groups.isEmpty then []
  else ascii "--- \n" :: ascii "+++ \n" :: (groups.map (groupLines a b)).flatten

/-- `send_diff`'s `diff_bytes = ''.join(diff_list).encode('utf-8')`. -/
def sendDiffBytes (a b : List Line) : Bytes := (unifiedDiff a b).flatten

/-- `send_diff`'s `edited_length = sum([len(line) for line in edited])`
(character count of the decoded lines; equal to the byte count on
single-byte text). -/
def editedLength (b : List Line) : Nat := (b.map List.length).sum

/-- The boolean `send_diff` returns: `False` (send the full file) iff
`len(diff_bytes) > edited_length`, else the diff is sent and it returns
`True`. -/
def sendDiffDecision (a b : List Line) : Bool :=
  if (sendDiffBytes a b).length > editedLength b then false else true

/-- The whole differential path: the host generates and serializes the diff
(`send_diff`), the guest splits the received body into lines
(`edited.splitlines(keepends=True)` in `sshed.py`'s `main`) and applies
`Patcher.patch` to the original file content. -/
def diffPatchRoundTrip (O E : List Line) : Except PatchErr Bytes :=
  Patcher.patch O.flatten (splitLinesKeep (sendDiffBytes O E))

/-! ## Reference description of hunk splitting (for the amended C8) -/

/-- Reference splitter (amended §4.5 `parse_hunks`): group the lines so that
every `@@` line begins a new group and every other line joins the group in
progress; lines before the first `@@` form an initial headerless group. -/
def splitAtStarts : List Bytes → List (List Bytes)
  | [] => []
  | l :: rest =>
    match splitAtStarts rest with
    | [] => [[l]]
    | [] :: gs => [l] :: gs
    | (gl :: gr) :: gs =>
      if isHunkStart gl then [l] :: (gl :: gr) :: gs else (l :: gl :: gr) :: gs

/-- Reference description of `Patcher._get_hunks`: discard the `---`/`+++`
file-identifier lines, then split at `@@` lines. -/
def hunksSpec (diff : List Bytes) : List (List Bytes) :=
  splitAtStarts (diff.filter (fun l => !isFileIdLine l))

/-- Closing the open hunk against the groups of the remaining input: an open
hunk absorbs a leading headerless group and is closed before a group that
starts with `@@`. -/
def prependOpen (hunk : List Bytes) (groups : List (List Bytes)) : List (List Bytes) :=
  if hunk.isEmpty then groups
  else
    match groups with
    | [] => [hunk]
    | [] :: gs => hunk :: gs
    | (gl :: gr) :: gs =>
      if isHunkStart gl then hunk :: (gl :: gr) :: gs else (hunk ++ gl :: gr) :: gs

theorem prependOpen_nil_hunk (G : List (List Bytes)) : prependOpen [] G = G := by
  rw [prependOpen.eq_def]
  simp

theorem prependOpen_ne_nil_hunk (hunk : List Bytes) (hh : hunk ≠ [])
    (G : List (List Bytes)) :
    prependOpen hunk G =
      match G with
      | [] => [hunk]
      | [] :: gs => hunk :: gs
      | (gl :: gr) :: gs =>
        if isHunkStart gl then hunk :: (gl :: gr) :: gs else (hunk ++ gl :: gr) :: gs := by
  rw [prependOpen.eq_def]
  have : (hunk.isEmpty) = false := by simpa using hh
  rw [this]
  simp

theorem splitAtStarts_cons (l : Bytes) (fr : List Bytes) :
    splitAtStarts (l :: fr) = prependOpen [l] (splitAtStarts fr) := by
  rw [splitAtStarts, prependOpen_ne_nil_hunk [l] (by simp)]
  rcases splitAtStarts fr with _ | ⟨_ | ⟨gl, gr⟩, gs⟩ <;> simp

theorem prependOpen_append (hunk : List Bytes) (l : Bytes) (G : List (List Bytes))
    (hl : ¬ isHunkStart l = true) :
    prependOpen (hunk ++ [l]) G = prependOpen hunk (prependOpen [l] G) := by
  by_cases hh : hunk = []
  · subst hh
    rw [List.nil_append, prependOpen_nil_hunk]
  · rw [prependOpen_ne_nil_hunk (hunk ++ [l]) (by simp),
      prependOpen_ne_nil_hunk [l] (by simp)]
    rcases G with _ | ⟨_ | ⟨gl, gr⟩, gs⟩
    · dsimp only
      rw [prependOpen_ne_nil_hunk hunk hh]
      simp [hl]
    · dsimp only
      rw [prependOpen_ne_nil_hunk hunk hh]
      simp [hl]
    · dsimp only
      by_cases hs : isHunkStart gl
      · rw [if_pos hs, if_pos hs, prependOpen_ne_nil_hunk hunk hh]
        simp [hl]
      · rw [if_neg hs, if_neg hs, prependOpen_ne_nil_hunk hunk hh]
        simp [hl]

theorem prependOpen_close (hunk : List Bytes) (l : Bytes) (G : List (List Bytes))
    (hl : isHunkStart l = true) :
    prependOpen hunk (prependOpen [l] G) =
      (if hunk.isEmpty then [] else [hunk]) ++ prependOpen [l] G := by
  by_cases hh : hunk = []
  · subst hh
    rw [prependOpen_nil_hunk]
    simp
  · have he : (hunk.isEmpty) = false := by simpa using hh
    rw [prependOpen_ne_nil_hunk [l] (by simp)]
    rcases G with _ | ⟨_ | ⟨gl, gr⟩, gs⟩
    · dsimp only
      rw [prependOpen_ne_nil_hunk hunk hh]
      simp [hl, he]
    · dsimp only
      rw [prependOpen_ne_nil_hunk hunk hh]
      simp [hl, he]
    · dsimp only
      by_cases hs : isHunkStart gl
      · rw [if_pos hs, prependOpen_ne_nil_hunk hunk hh]
        simp [hl, he]
      · rw [if_neg hs, prependOpen_ne_nil_hunk hunk hh]
        simp [hl, he]

theorem getHunksGo_spec : ∀ (diff hunk : List Bytes) (hunks : List (List Bytes)),
    getHunksGo diff hunk hunks =
      hunks ++ prependOpen hunk (splitAtStarts (diff.filter (fun l => !isFileIdLine l))) := by
  intro diff
  induction diff with
  | nil =>
    intro hunk hunks
    rw [getHunksGo, List.filter_nil, splitAtStarts, prependOpen]
    by_cases hh : hunk = []
    · subst hh; simp
    · have : (hunk.isEmpty) = false := by simpa using hh
      simp [this, hh]
  | cons l rest ih =>
    intro hunk hunks
    rw [getHunksGo, List.filter_cons]
    by_cases hid : isFileIdLine l = true
    · rw [if_pos hid, hid]
      simp only [Bool.not_true, Bool.false_eq_true, if_false]
      exact ih hunk hunks
    · rw [if_neg hid]
      have hid' : (!isFileIdLine l) = true := by simpa using hid
      rw [hid']
      simp only [if_true]
      rw [splitAtStarts_cons]
      by_cases hst : isHunkStart l = true
      · rw [if_pos hst]
        rw [prependOpen_close hunk l _ hst]
        by_cases hh : hunk = []
        · subst hh
          simp only [List.isEmpty_nil, if_pos rfl, List.nil_append]
          exact ih [l] hunks
        · have : (hunk.isEmpty) = false := by simpa using hh
          simp only [this, Bool.false_eq_true, if_false]
          rw [ih [l] (hunks ++ [hunk])]
          simp
      · rw [if_neg hst]
        rw [← prependOpen_append hunk l _ hst]
        exact ih (hunk ++ [l]) hunks

/-! ## Patcher loop lemmas -/

theorem processHunkLines_append (xs ys : List Bytes) :
    ∀ (f : PFile) (lineNo : Int) (out : Bytes),
    processHunkLines f lineNo out (xs ++ ys) =
      match processHunkLines f lineNo out xs with
      | .ok (f', l', o') => processHunkLines f' l' o' ys
      | .error e => .error e := by
  induction xs with
  | nil => intro f lineNo out; rfl
  | cons x xs ih =>
    intro f lineNo out
    rw [List.cons_append, processHunkLines, processHunkLines]
    by_cases h1 : startsWithB x [DASH] = true
    · rw [if_pos h1, if_pos h1]
      rcases hr : f.readline with ⟨orig, f'⟩
      dsimp only
      by_cases h2 : orig ≠ x.drop 1
      · rw [if_pos h2, if_pos h2]
      · rw [if_neg h2, if_neg h2]
        exact ih f' (lineNo + 1) out
    · rw [if_neg h1, if_neg h1]
      by_cases h2 : startsWithB x [SP] = true
      · rw [if_pos h2, if_pos h2]
        rcases hr : f.readline with ⟨orig, f'⟩
        dsimp only
        by_cases h3 : orig ≠ x.drop 1
        · rw [if_pos h3, if_pos h3]
        · rw [if_neg h3, if_neg h3]
          exact ih f' (lineNo + 1) (out ++ orig)
      · rw [if_neg h2, if_neg h2]
        by_cases h3 : startsWithB x [PLUS] = true
        · rw [if_pos h3, if_pos h3]
          exact ih f lineNo (out ++ x.drop 1)
        · rw [if_neg h3, if_neg h3]
          exact ih f lineNo out

theorem patchHunks_append (xs ys : List (List Bytes)) :
    ∀ (f : PFile) (lineNo : Int) (out : Bytes),
    patchHunks f lineNo out (xs ++ ys) =
      match patchHunks f lineNo out xs with
      | .ok (f', l', o') => patchHunks f' l' o' ys
      | .error e => .error e := by
  induction xs with
  | nil => intro f lineNo out; rfl
  | cons x xs ih =>
    intro f lineNo out
    rw [List.cons_append, patchHunks, patchHunks]
    rcases hx : processHunk f lineNo out x with e | ⟨f', l', o'⟩
    · rfl
    · exact ih f' l' o'

/-! ## Stream lemmas: chunking invariance of the packet reader -/

theorem startsWithB_length (s pat : Bytes) (h : startsWithB s pat = true) :
    pat.length ≤ s.length := by
  induction pat generalizing s with
  | nil => simp
  | cons p ps ih =>
    cases s with
    | nil => simp [startsWithB] at h
    | cons b bs =>
      rw [startsWithB, Bool.and_eq_true] at h
      simpa using ih bs h.2

theorem startsWithB_append_right (s t pat : Bytes) (h : startsWithB s pat = true) :
    startsWithB (s ++ t) pat = true := by
  induction pat generalizing s with
  | nil => simp [startsWithB]
  | cons p ps ih =>
    cases s with
    | nil => simp [startsWithB] at h
    | cons b bs =>
      rw [startsWithB, Bool.and_eq_true] at h
      rw [List.cons_append, startsWithB, Bool.and_eq_true]
      exact ⟨h.1, ih bs h.2⟩

theorem startsWithB_of_append (s t pat : Bytes)
    (h : startsWithB (s ++ t) pat = true) (hlen : pat.length ≤ s.length) :
    startsWithB s pat = true := by
  induction pat generalizing s with
  | nil => cases s <;> simp [startsWithB]
  | cons p ps ih =>
    cases s with
    | nil => simp at hlen
    | cons b bs =>
      rw [List.cons_append, startsWithB, Bool.and_eq_true] at h
      rw [startsWithB, Bool.and_eq_true]
      exact ⟨h.1, ih bs h.2 (by simpa using hlen)⟩

theorem findSub_some_bound (pat s : Bytes) (i : Nat)
    (h : findSub pat s = some i) : i + pat.length ≤ s.length := by
  induction s generalizing i with
  | nil =>
    rw [findSub] at h
    split at h
    · next hp => cases h; simp [hp]
    · cases h
  | cons b bs ih =>
    rw [findSub] at h
    split at h
    · next hp =>
      cases h
      simpa using startsWithB_length _ _ hp
    · rcases hfs : findSub pat bs with _ | j
      · rw [hfs] at h; cases h
      · rw [hfs] at h
        injection h with h
        subst h
        have := ih j hfs
        simp
        omega

theorem findSub_append_some (pat s t : Bytes) (i : Nat)
    (h : findSub pat s = some i) : findSub pat (s ++ t) = some i := by
  induction s generalizing i with
  | nil =>
    rw [findSub] at h
    split at h
    · next hp =>
      cases h
      subst hp
      cases t <;> simp [findSub, startsWithB]
    · cases h
  | cons b bs ih =>
    rw [findSub] at h
    rw [List.cons_append, findSub]
    split at h
    · next hp =>
      cases h
      rw [if_pos (by simpa using startsWithB_append_right _ t _ hp)]
    · next hp =>
      rcases hfs : findSub pat bs with _ | j
      · rw [hfs] at h; cases h
      · rw [hfs] at h
        injection h with h
        subst h
        by_cases hq : startsWithB (b :: (bs ++ t)) pat = true
        · exfalso
          have hb := findSub_some_bound pat bs j hfs
          have : startsWithB (b :: bs) pat = true :=
            startsWithB_of_append _ _ _ (by simpa using hq) (by simp; omega)
          exact hp this
        · rw [if_neg hq, ih j hfs]
          rfl

theorem findSub_prefix_none (pat s t : Bytes)
    (h : findSub pat (s ++ t) = none) : findSub pat s = none := by
  rcases hfs : findSub pat s with _ | i
  · rfl
  · rw [findSub_append_some pat s t i hfs] at h
    cases h

/-- A terminator straddling the header/body boundary is found exactly at the
boundary when `hdr ++ [NL]` contains no terminator. -/
theorem findSub_boundary (hdr r : Bytes)
    (hnoterm : findSub [NL, NL] (hdr ++ [NL]) = none) :
    findSub [NL, NL] (hdr ++ NL :: NL :: r) = some hdr.length := by
  induction hdr with
  | nil => simp [findSub, startsWithB, NL]
  | cons b hb ih =>
    rw [List.cons_append, findSub]
    rw [List.cons_append, findSub] at hnoterm
    split at hnoterm
    · cases hnoterm
    · next hns =>
      have htail : findSub [NL, NL] (hb ++ [NL]) = none := by
        rcases hfs : findSub [NL, NL] (hb ++ [NL]) with _ | j
        · rfl
        · rw [hfs] at hnoterm; cases hnoterm
      rw [if_neg ?_]
      · rw [ih htail]; rfl
      · intro hq
        apply hns
        -- a match at position 0 uses only `b` and the next byte, which is the
        -- same in `hb ++ [NL]` and `hb ++ NL :: NL :: r` (head of `hb`, or `NL`)
        rcases hb with _ | ⟨c, hc⟩
        · simpa [startsWithB, NL] using hq
        · simpa [startsWithB] using hq

/-- The `recv` loop of `_get_headers` fails with `SocketClosedError` whenever
the whole delivered stream contains no `\n\n`. -/
theorem getHeadersLoop_none (chunks : List Bytes) :
    ∀ buf, findSub [NL, NL] (buf ++ chunks.flatten) = none →
    getHeadersLoop chunks buf = .error .socketClosed := by
  induction chunks with
  | nil =>
    intro buf h
    rw [List.flatten_nil, List.append_nil] at h
    rw [getHeadersLoop, h]
  | cons c cs ih =>
    intro buf h
    have hb : findSub [NL, NL] buf = none := by
      rcases hfs : findSub [NL, NL] buf with _ | i
      · rfl
      · rw [findSub_append_some _ buf _ i hfs] at h; cases h
    rw [getHeadersLoop, hb]
    by_cases hc : c.isEmpty
    · rw [if_pos hc]
    · rw [if_neg hc]
      apply ih
      simpa using h

/-- The `recv` loop of `_get_headers` is chunking-invariant: when the stream
contains a terminator, the raw header block is a function of the
concatenated bytes only, and the leftover state re-concatenates to the bytes
after the terminator. -/
theorem getHeadersLoop_found (chunks : List Bytes) :
    ∀ buf i, [] ∉ chunks →
    findSub [NL, NL] (buf ++ chunks.flatten) = some i →
    ∃ buf' chunks', getHeadersLoop chunks buf =
        .ok ((buf ++ chunks.flatten).take i, buf', chunks') ∧
      buf' ++ chunks'.flatten = (buf ++ chunks.flatten).drop (i + 2) ∧
      [] ∉ chunks' := by
  induction chunks with
  | nil =>
    intro buf i _ h
    rw [List.flatten_nil, List.append_nil] at h ⊢
    refine ⟨buf.drop (i + 2), [], ?_, by simp, by simp⟩
    rw [getHeadersLoop, h]
  | cons c cs ih =>
    intro buf i hne h
    rcases hfs : findSub [NL, NL] buf with _ | i0
    · have hcne : ¬(c.isEmpty) = true := by
        simp only [List.mem_cons] at hne
        push_neg at hne
        simpa using hne.1
      rw [getHeadersLoop, hfs, if_neg hcne]
      have h' : findSub [NL, NL] ((buf ++ c) ++ cs.flatten) = some i := by
        rw [List.append_assoc]
        simpa using h
      obtain ⟨buf', chunks', h1, h2, h3⟩ := ih (buf ++ c) i
        (by simp only [List.mem_cons] at hne; push_neg at hne; exact hne.2) h'
      refine ⟨buf', chunks', ?_, ?_, h3⟩
      · rw [h1]
        rw [List.append_assoc] at h' ⊢
        rfl
      · rw [h2, List.append_assoc]
        rfl
    · have heq : findSub [NL, NL] (buf ++ (c :: cs).flatten) = some i0 :=
        findSub_append_some _ _ _ _ hfs
      rw [h] at heq
      injection heq with heq
      subst heq
      have hbound : i + 2 ≤ buf.length := by
        simpa using findSub_some_bound _ _ _ hfs
      rw [getHeadersLoop, hfs]
      refine ⟨buf.drop (i + 2), c :: cs, ?_, ?_, hne⟩
      · rw [List.take_append_of_le_length (by omega)]
      · rw [List.drop_append_of_le_length (by omega)]

/-- `_get_bytes` when the loop condition is already false (Python's implicit
`return None`). -/
theorem getBytesLoop_done (length : Int) (chunks : List Bytes) (buf : Bytes)
    (written : Int) (message : Bytes) (h : ¬ written < length) :
    getBytesLoop length chunks buf written message = .ok (none, buf, chunks) := by
  cases chunks <;> rw [getBytesLoop] <;> rw [if_neg h]

/-- `_get_bytes` consumes the whole remaining stream and returns it when the
stream holds exactly the requested number of bytes. -/
theorem getBytesLoop_exact (length : Int) (chunks : List Bytes) :
    ∀ buf written message, [] ∉ chunks → 0 ≤ written → written < length →
    ((buf ++ chunks.flatten).length : Int) = length - written →
    getBytesLoop length chunks buf written message =
      .ok (some (message ++ buf ++ chunks.flatten), [], []) := by
  induction chunks with
  | nil =>
    intro buf written message _ hw hwl hlen
    rw [List.flatten_nil, List.append_nil] at hlen ⊢
    rw [getBytesLoop, if_pos hwl, if_pos (by omega)]
    have htake : buf.take length.toNat = buf := by
      apply List.take_of_length_le
      omega
    have hdrop : buf.drop length.toNat = [] := by
      apply List.drop_eq_nil_of_le
      omega
    rw [htake, hdrop]
  | cons c cs ih =>
    intro buf written message hne hw hwl hlen
    simp only [List.mem_cons] at hne
    push_neg at hne
    have hc1 : c ≠ [] := fun h => hne.1 h.symm
    have hcne : ¬(c.isEmpty) = true := by simpa using hc1
    have hclen : 1 ≤ c.length := by
      cases c with
      | nil => exact absurd rfl hc1
      | cons _ _ => simp
    rw [getBytesLoop, if_pos hwl]
    have hlen' : (buf.length : Int) + c.length + cs.flatten.length = length - written := by
      have hflat : (buf ++ (c :: cs).flatten).length
          = buf.length + (c.length + cs.flatten.length) := by simp
      rw [hflat] at hlen
      push_cast at hlen
      omega
    rw [if_neg (by omega)]
    rw [if_neg hcne]
    have hrec := ih c (written + buf.length) (message ++ buf) (fun h => hne.2 h)
      (by omega) (by omega)
      (by
        have : (c ++ cs.flatten).length = c.length + cs.flatten.length := by simp
        rw [this]
        push_cast
        omega)
    rw [hrec]
    simp

/-- `_get_bytes` raises `SocketClosedError` when the stream holds fewer
bytes than requested. -/
theorem getBytesLoop_short (length : Int) (chunks : List Bytes) :
    ∀ buf written message, [] ∉ chunks → 0 ≤ written →
    ((buf ++ chunks.flatten).length : Int) < length - written →
    getBytesLoop length chunks buf written message = .error .socketClosed := by
  induction chunks with
  | nil =>
    intro buf written message _ hw hlen
    rw [List.flatten_nil, List.append_nil] at hlen
    rw [getBytesLoop, if_pos (by omega), if_neg (by omega)]
  | cons c cs ih =>
    intro buf written message hne hw hlen
    simp only [List.mem_cons] at hne
    push_neg at hne
    have hc1 : c ≠ [] := fun h => hne.1 h.symm
    have hcne : ¬(c.isEmpty) = true := by simpa using hc1
    have hlen' : (buf.length : Int) + c.length + cs.flatten.length < length - written := by
      have hflat : (buf ++ (c :: cs).flatten).length
          = buf.length + (c.length + cs.flatten.length) := by simp
      rw [hflat] at hlen
      push_cast at hlen
      omega
    rw [getBytesLoop, if_pos (by omega), if_neg (by omega)]
    rw [if_neg hcne]
    apply ih c (written + buf.length) (message ++ buf) (fun h => hne.2 h) (by omega)
    have : (c ++ cs.flatten).length = c.length + cs.flatten.length := by simp
    rw [this]
    push_cast
    omega

/-! ## Dictionary lemmas -/

theorem dictGet_cons (p : Bytes × PyVal) (t : Headers) (k : Bytes) :
    dictGet (p :: t) k = if p.1 = k then some p.2 else dictGet t k := by
  unfold dictGet
  by_cases hp : p.1 = k
  · rw [List.find?_cons_of_pos _ (by simpa using hp)]
    simp [hp]
  · rw [List.find?_cons_of_neg _ (by simpa using hp)]
    simp [hp]

theorem dictGet_map_self (h : Headers) (k : Bytes) (v : PyVal)
    (hany : h.any (fun p => p.1 == k) = true) :
    dictGet (h.map (fun p => if p.1 == k then (k, v) else p)) k = some v := by
  induction h with
  | nil => simp at hany
  | cons p t ih =>
    rw [List.map_cons]
    by_cases hp : p.1 = k
    · have hb : (p.1 == k) = true := by simpa using hp
      simp only [hb, if_true]
      rw [dictGet_cons]
      simp
    · have hb : (p.1 == k) = false := by simpa using hp
      simp only [hb, Bool.false_eq_true, if_false]
      rw [dictGet_cons, if_neg hp]
      apply ih
      simpa [hb] using hany

theorem dictGet_append_single (h : Headers) (k : Bytes) (v : PyVal)
    (hany : h.any (fun p => p.1 == k) = false) :
    dictGet (h ++ [(k, v)]) k = some v := by
  induction h with
  | nil => rw [List.nil_append, dictGet_cons]; simp
  | cons p t ih =>
    simp only [List.any_cons, Bool.or_eq_false_iff] at hany
    rw [List.cons_append, dictGet_cons]
    rw [if_neg (by simpa using hany.1)]
    exact ih (by simpa using hany.2)

theorem dictGet_map_other (h : Headers) (k : Bytes) (v : PyVal)
    (k' : Bytes) (hne : k' ≠ k) :
    dictGet (h.map (fun p => if p.1 == k then (k, v) else p)) k' = dictGet h k' := by
  induction h with
  | nil => rfl
  | cons p t ih =>
    rw [List.map_cons]
    by_cases hp : p.1 = k
    · have hb : (p.1 == k) = true := by simpa using hp
      simp only [hb, if_true]
      rw [dictGet_cons, dictGet_cons]
      rw [if_neg (by simpa using Ne.symm hne), if_neg (by rw [hp]; exact Ne.symm hne)]
      exact ih
    · have hb : (p.1 == k) = false := by simpa using hp
      simp only [hb, Bool.false_eq_true, if_false]
      rw [dictGet_cons, dictGet_cons]
      by_cases hp' : p.1 = k'
      · rw [if_pos hp', if_pos hp']
      · rw [if_neg hp', if_neg hp']
        exact ih

theorem dictGet_append_single_other (h : Headers) (k : Bytes) (v : PyVal)
    (k' : Bytes) (hne : k' ≠ k) :
    dictGet (h ++ [(k, v)]) k' = dictGet h k' := by
  induction h with
  | nil =>
    rw [List.nil_append, dictGet_cons]
    simp [Ne.symm hne, dictGet]
  | cons p t ih =>
    rw [List.cons_append, dictGet_cons, dictGet_cons]
    by_cases hp' : p.1 = k'
    · rw [if_pos hp', if_pos hp']
    · rw [if_neg hp', if_neg hp']
      exact ih

theorem dictGet_dictInsert_self (h : Headers) (k : Bytes) (v : PyVal) :
    dictGet (dictInsert h k v) k = some v := by
  unfold dictInsert
  split
  · next hany => exact dictGet_map_self h k v hany
  · next hany => exact dictGet_append_single h k v (Bool.eq_false_iff.mpr hany)

theorem dictGet_dictInsert_other (h : Headers) (k : Bytes) (v : PyVal)
    (k' : Bytes) (hne : k' ≠ k) :
    dictGet (dictInsert h k v) k' = dictGet h k' := by
  unfold dictInsert
  split
  · exact dictGet_map_other h k v k' hne
  · exact dictGet_append_single_other h k v k' hne

/-! ## Header codec round trip (C2): stripping and splitting lemmas -/

theorem headD_reverse (s : Bytes) (d : Byte) : s.reverse.headD d = s.getLastD d := by
  rw [List.headD_eq_head?, List.getLastD_eq_getLast?, List.head?_reverse]

theorem getLastD_mem (s : Bytes) (d : Byte) (h : s ≠ []) : s.getLastD d ∈ s := by
  rw [List.getLastD_eq_getLast?]
  rcases hgl : s.getLast? with _ | a
  · rw [List.getLast?_eq_none_iff] at hgl
    exact absurd hgl h
  · simp only [Option.getD_some]
    obtain ⟨hne2, hx⟩ := List.mem_getLast?_eq_getLast (Option.mem_def.mpr hgl)
    rw [hx]
    exact List.getLast_mem hne2

theorem headD_mem (s : Bytes) (d : Byte) (h : s ≠ []) : s.headD d ∈ s := by
  cases s with
  | nil => exact absurd rfl h
  | cons a t => simp

theorem pyStrip_eq_self (s : Bytes) (h1 : isPySpace (s.headD 0) = false)
    (h2 : isPySpace (s.getLastD 0) = false) : pyStrip s = s := by
  unfold pyStrip
  have hd : s.dropWhile isPySpace = s := by
    cases s with
    | nil => rfl
    | cons b t =>
      simp only [List.headD_cons] at h1
      simp [List.dropWhile_cons, h1]
  rw [hd]
  have hr : s.reverse.dropWhile isPySpace = s.reverse := by
    cases hc : s.reverse with
    | nil => rfl
    | cons c u =>
      have h3 := headD_reverse s 0
      rw [hc] at h3
      simp only [List.headD_cons] at h3
      rw [← h3] at h2
      simp [List.dropWhile_cons, h2]
  rw [hr, List.reverse_reverse]

theorem pyStrip_space_cons (s : Bytes) : pyStrip (SP :: s) = pyStrip s := by
  unfold pyStrip
  rw [List.dropWhile_cons]
  norm_num [isPySpace, SP]

theorem findSub_single_some (c : Byte) (s r : Bytes) (h : c ∉ s) :
    findSub [c] (s ++ c :: r) = some s.length := by
  induction s with
  | nil =>
    rw [List.nil_append, findSub]
    simp [startsWithB]
  | cons b t ih =>
    rw [List.cons_append, findSub]
    have hb : (b == c) = false := by
      simp only [beq_eq_false_iff_ne]
      intro hbc
      exact h (by rw [hbc]; exact List.mem_cons_self c t)
    have hsw : startsWithB (b :: (t ++ c :: r)) [c] = false := by
      simp [startsWithB, hb]
    rw [hsw, if_neg (by simp), ih (fun hm => h (List.mem_cons_of_mem b hm))]
    rfl

theorem findSub_single_none (c : Byte) (s : Bytes) (h : c ∉ s) :
    findSub [c] s = none := by
  induction s with
  | nil => rfl
  | cons b t ih =>
    rw [findSub]
    have hb : (b == c) = false := by
      simp only [beq_eq_false_iff_ne]
      intro hbc
      exact h (by rw [hbc]; exact List.mem_cons_self c t)
    have hsw : startsWithB (b :: t) [c] = false := by
      simp [startsWithB, hb]
    rw [hsw, if_neg (by simp), ih (fun hm => h (List.mem_cons_of_mem b hm))]
    rfl

theorem splitOnByte_no_sep (c : Byte) (s : Bytes) (h : c ∉ s) :
    splitOnByte c s = [s] := by
  induction s with
  | nil => rfl
  | cons b t ih =>
    rw [splitOnByte]
    have hb : (b == c) = false := by
      simp only [beq_eq_false_iff_ne]
      intro hbc
      exact h (by rw [hbc]; exact List.mem_cons_self c t)
    rw [ih (fun hm => h (List.mem_cons_of_mem b hm))]
    simp [hb]

theorem splitOnByte_prepend (c : Byte) (piece rest : Bytes) (h : c ∉ piece) :
    splitOnByte c (piece ++ c :: rest) = piece :: splitOnByte c rest := by
  induction piece with
  | nil =>
    rw [List.nil_append, splitOnByte]
    simp
  | cons b p ih =>
    rw [List.cons_append, splitOnByte]
    have hb : (b == c) = false := by
      simp only [beq_eq_false_iff_ne]
      intro hbc
      exact h (by rw [hbc]; exact List.mem_cons_self c p)
    rw [ih (fun hm => h (List.mem_cons_of_mem b hm))]
    simp [hb]

theorem findSub_nlnl_prepend (body t : Bytes) (hb : NL ∉ body)
    (ht : findSub [NL, NL] t = none) : findSub [NL, NL] (body ++ t) = none := by
  induction body with
  | nil => simpa
  | cons b r ih =>
    rw [List.cons_append, findSub]
    have hbn : (b == NL) = false := by
      simp only [beq_eq_false_iff_ne]
      intro hbc
      exact hb (by rw [hbc]; exact List.mem_cons_self NL r)
    have hsw : startsWithB (b :: (r ++ t)) [NL, NL] = false := by
      simp [startsWithB, hbn]
    rw [hsw, if_neg (by simp), ih (fun hm => hb (List.mem_cons_of_mem b hm))]
    rfl

theorem block_no_term (bodies : List Bytes)
    (h : ∀ b ∈ bodies, b ≠ [] ∧ NL ∉ b) :
    findSub [NL, NL] ((bodies.map (fun s => s ++ [NL])).flatten) = none := by
  induction bodies with
  | nil => rfl
  | cons body rest ih =>
    have hhead : startsWithB ((rest.map (fun s => s ++ [NL])).flatten) [NL] = false := by
      cases rest with
      | nil => rfl
      | cons b2 r2 =>
        obtain ⟨hb2ne, hb2nl⟩ := h b2 (List.mem_cons_of_mem body (List.mem_cons_self b2 r2))
        cases hb2 : b2 with
        | nil => exact absurd hb2 hb2ne
        | cons c cs =>
          have hcnl : (c == NL) = false := by
            simp only [beq_eq_false_iff_ne]
            intro hc
            exact hb2nl (by rw [hb2, hc]; exact List.mem_cons_self NL cs)
          simp [hb2, startsWithB, hcnl]
    have h1 : findSub [NL, NL] (NL :: (rest.map (fun s => s ++ [NL])).flatten) = none := by
      rw [findSub]
      have hsw : startsWithB (NL :: (rest.map (fun s => s ++ [NL])).flatten) [NL, NL]
          = false := by
        simp [startsWithB, hhead]
      rw [hsw, if_neg (by simp),
        ih (fun b hbm => h b (List.mem_cons_of_mem body hbm))]
      rfl
    have h2 : ((body :: rest).map (fun s => s ++ [NL])).flatten
        = body ++ (NL :: (rest.map (fun s => s ++ [NL])).flatten) := by
      simp
    rw [h2]
    exact findSub_nlnl_prepend body _ (h body (List.mem_cons_self body rest)).2 h1

theorem splitOnByte_block (bs : List Bytes) (lastb : Bytes)
    (h : ∀ b ∈ bs, NL ∉ b) (hl : NL ∉ lastb) :
    splitOnByte NL ((bs.map (fun s => s ++ [NL])).flatten ++ lastb) = bs ++ [lastb] := by
  induction bs with
  | nil => simpa using splitOnByte_no_sep NL lastb hl
  | cons body rest ih =>
    have h2 : ((body :: rest).map (fun s => s ++ [NL])).flatten ++ lastb
        = body ++ (NL :: ((rest.map (fun s => s ++ [NL])).flatten ++ lastb)) := by
      simp
    rw [h2, splitOnByte_prepend NL body _ (h body (List.mem_cons_self body rest)),
      ih (fun b hbm => h b (List.mem_cons_of_mem body hbm))]
    rfl

/-! ## Decimal rendering round trip -/

theorem isDigit_le (b : Nat) (h : isDigit b = true) : 48 ≤ b ∧ b ≤ 57 := by
  simp only [isDigit, Bool.and_eq_true, decide_eq_true_eq] at h
  exact ⟨h.1, h.2⟩

theorem isDigit_intro (b : Nat) (h1 : 48 ≤ b) (h2 : b ≤ 57) : isDigit b = true := by
  simp only [isDigit, Bool.and_eq_true, decide_eq_true_eq]
  exact ⟨h1, h2⟩

theorem isPySpace_false_of (b : Nat) (h1 : b ≠ 32) (h2 : b ≠ 9) (h3 : b ≠ 10)
    (h4 : b ≠ 13) (h5 : b ≠ 11) (h6 : b ≠ 12) : isPySpace b = false := by
  simp only [isPySpace, Bool.or_eq_false_iff, beq_eq_false_iff_ne]
  exact ⟨⟨⟨⟨⟨h1, h2⟩, h3⟩, h4⟩, h5⟩, h6⟩

theorem natDecGo_zero (fuel : Nat) (acc : Bytes) : natDecGo fuel 0 acc = acc := by
  cases fuel with
  | zero => rfl
  | succ f => rw [natDecGo, if_pos rfl]

theorem natDecGo_eq_of_le (n : Nat) : ∀ f1 f2 acc, n ≤ f1 → n ≤ f2 →
    natDecGo f1 n acc = natDecGo f2 n acc := by
  induction n using Nat.strong_induction_on with
  | _ n ih =>
    intro f1 f2 acc h1 h2
    cases n with
    | zero => rw [natDecGo_zero, natDecGo_zero]
    | succ m =>
      cases f1 with
      | zero => omega
      | succ a =>
        cases f2 with
        | zero => omega
        | succ b =>
          rw [natDecGo, natDecGo, if_neg (Nat.succ_ne_zero m), if_neg (Nat.succ_ne_zero m)]
          have hq : (m + 1) / 10 < m + 1 := Nat.div_lt_self (Nat.succ_pos m) (by omega)
          exact ih _ hq a b _ (by omega) (by omega)

theorem natDecGo_shift (n : Nat) : ∀ fuel acc, n ≤ fuel →
    natDecGo fuel n acc = natDecGo fuel n [] ++ acc := by
  induction n using Nat.strong_induction_on with
  | _ n ih =>
    intro fuel acc h
    cases n with
    | zero => rw [natDecGo_zero, natDecGo_zero]; rfl
    | succ m =>
      cases fuel with
      | zero => omega
      | succ a =>
        rw [natDecGo, natDecGo, if_neg (Nat.succ_ne_zero m), if_neg (Nat.succ_ne_zero m)]
        have hq : (m + 1) / 10 < m + 1 := Nat.div_lt_self (Nat.succ_pos m) (by omega)
        rw [ih _ hq a ((48 + (m + 1) % 10) :: acc) (by omega),
          ih _ hq a [48 + (m + 1) % 10] (by omega)]
        simp

theorem natDecGo_digits (fuel : Nat) : ∀ n acc, (∀ b ∈ acc, isDigit b = true) →
    ∀ b ∈ natDecGo fuel n acc, isDigit b = true := by
  induction fuel with
  | zero => intro n acc hacc b hb; exact hacc b hb
  | succ f ih =>
    intro n acc hacc b hb
    rw [natDecGo] at hb
    by_cases hn : n = 0
    · rw [if_pos hn] at hb
      exact hacc b hb
    · rw [if_neg hn] at hb
      refine ih (n / 10) ((48 + n % 10) :: acc) ?_ b hb
      intro c hc
      rcases List.mem_cons.mp hc with h1 | h1
      · rw [h1]
        exact isDigit_intro (48 + n % 10) (by omega) (by omega)
      · exact hacc c h1

theorem natDecGo_length (fuel : Nat) : ∀ n acc, acc.length ≤ (natDecGo fuel n acc).length := by
  induction fuel with
  | zero => intro n acc; exact le_refl _
  | succ f ih =>
    intro n acc
    rw [natDecGo]
    by_cases hn : n = 0
    · rw [if_pos hn]
    · rw [if_neg hn]
      calc acc.length ≤ ((48 + n % 10) :: acc).length := by simp
        _ ≤ _ := ih (n / 10) _

theorem natDec_ne_nil (n : Nat) : natDec n ≠ [] := by
  unfold natDec
  by_cases hn : n = 0
  · rw [if_pos hn]
    simp
  · rw [if_neg hn]
    cases n with
    | zero => exact absurd rfl hn
    | succ m =>
      intro hcontra
      have h1 := natDecGo_length m ((m + 1) / 10) [48 + (m + 1) % 10]
      rw [natDecGo, if_neg (Nat.succ_ne_zero m)] at hcontra
      rw [hcontra] at h1
      simp at h1

theorem natDec_digits (n : Nat) (b : Byte) (hb : b ∈ natDec n) : isDigit b = true := by
  unfold natDec at hb
  by_cases hn : n = 0
  · rw [if_pos hn] at hb
    simp at hb
    rw [hb]
    rfl
  · rw [if_neg hn] at hb
    exact natDecGo_digits n n [] (by simp) b hb

theorem natDec_val (n : Nat) : 0 < n → ∀ a : Nat,
    (natDecGo n n []).foldl (fun acc b => if isDigit b then acc * 10 + (b - 48) else acc) a
      = a * 10 ^ (natDecGo n n []).length + n := by
  induction n using Nat.strong_induction_on with
  | _ n ih =>
    intro hpos a
    cases n with
    | zero => omega
    | succ m =>
      have hq10 : (m + 1) / 10 < m + 1 := Nat.div_lt_self (Nat.succ_pos m) (by omega)
      have hdig : isDigit (48 + (m + 1) % 10) = true :=
        isDigit_intro (48 + (m + 1) % 10) (by omega) (by omega)
      by_cases hq : (m + 1) / 10 = 0
      · have h1 : natDecGo (m + 1) (m + 1) [] = [48 + (m + 1) % 10] := by
          rw [natDecGo, if_neg (Nat.succ_ne_zero m), hq, natDecGo_zero]
        rw [h1]
        simp only [List.foldl_cons, List.foldl_nil, List.length_cons, List.length_nil]
        rw [if_pos hdig]
        show a * 10 + (48 + (m + 1) % 10 - 48) = a * 10 + (m + 1)
        omega
      · have hqle : (m + 1) / 10 ≤ m := by omega
        have h1 : natDecGo (m + 1) (m + 1) [] =
            natDecGo ((m + 1) / 10) ((m + 1) / 10) [] ++ [48 + (m + 1) % 10] := by
          rw [natDecGo, if_neg (Nat.succ_ne_zero m),
            natDecGo_shift ((m + 1) / 10) m _ hqle,
            natDecGo_eq_of_le ((m + 1) / 10) m ((m + 1) / 10) [] hqle (le_refl _)]
        rw [h1, List.foldl_append, ih ((m + 1) / 10) hq10 (Nat.pos_of_ne_zero hq) a]
        simp only [List.foldl_cons, List.foldl_nil, List.length_append, List.length_cons,
          List.length_nil]
        rw [if_pos hdig]
        generalize (natDecGo ((m + 1) / 10) ((m + 1) / 10) []).length = L
        show (a * 10 ^ L + (m + 1) / 10) * 10 + (48 + (m + 1) % 10 - 48)
            = a * 10 ^ (L + (0 + 1)) + (m + 1)
        have hpw : (10 : Nat) ^ (L + (0 + 1)) = 10 ^ L * 10 := by
          rw [Nat.zero_add, pow_succ]
        rw [hpw]
        have hqr : (m + 1) / 10 * 10 + (m + 1) % 10 = m + 1 := by omega
        have hexp : (a * 10 ^ L + (m + 1) / 10) * 10
            = a * (10 ^ L * 10) + (m + 1) / 10 * 10 := by ring
        omega

theorem digitsVal_natDec (n : Nat) : digitsVal (natDec n) = n := by
  by_cases hn : n = 0
  · rw [hn]
    rfl
  · unfold natDec digitsVal
    rw [if_neg hn, natDec_val n (Nat.pos_of_ne_zero hn) 0]
    simp

theorem digitsUAux_of_all (s : Bytes) (h : ∀ b ∈ s, isDigit b = true) :
    digitsUAux s = true := by
  induction s with
  | nil => rfl
  | cons b t ih =>
    rw [digitsUAux.eq_def]
    dsimp only
    rw [if_pos (h b (List.mem_cons_self b t))]
    exact ih (fun c hc => h c (List.mem_cons_of_mem b hc))

theorem digitsU_natDec (n : Nat) : digitsU (natDec n) = true := by
  rcases hbr : natDec n with _ | ⟨b, rest⟩
  · exact absurd hbr (natDec_ne_nil n)
  · rw [digitsU]
    have hb : isDigit b = true :=
      natDec_digits n b (by rw [hbr]; exact List.mem_cons_self b rest)
    rw [hb,
      digitsUAux_of_all rest
        (fun c hc => natDec_digits n c (by rw [hbr]; exact List.mem_cons_of_mem b hc))]
    rfl

theorem isPySpace_of_digit (b : Byte) (h : isDigit b = true) : isPySpace b = false := by
  have h2 := isDigit_le b h
  refine isPySpace_false_of b ?_ ?_ ?_ ?_ ?_ ?_ <;>
    · intro he
      rw [he] at h2
      omega

theorem pyStrip_natDec (n : Nat) : pyStrip (natDec n) = natDec n := by
  apply pyStrip_eq_self
  · exact isPySpace_of_digit _ (natDec_digits n _ (headD_mem _ 0 (natDec_ne_nil n)))
  · exact isPySpace_of_digit _ (natDec_digits n _ (getLastD_mem _ 0 (natDec_ne_nil n)))

theorem pyInt_intRepr (n : Int) : pyInt (intRepr n) = some n := by
  by_cases hneg : n < 0
  · have h1 : intRepr n = DASH :: natDec (-n).toNat := if_pos hneg
    rw [h1]
    unfold pyInt
    have hstrip : pyStrip (DASH :: natDec (-n).toNat) = DASH :: natDec (-n).toNat := by
      apply pyStrip_eq_self
      · rfl
      · rcases List.mem_cons.mp
            (getLastD_mem (DASH :: natDec (-n).toNat) 0 (by simp)) with h2 | h2
        · rw [h2]
          rfl
        · exact isPySpace_of_digit _ (natDec_digits _ _ h2)
    rw [hstrip]
    dsimp only
    rw [if_neg (by decide), if_pos (by decide), if_pos (digitsU_natDec _)]
    simp only [Option.some.injEq, digitsVal_natDec, Int.ofNat_eq_natCast]
    omega
  · have h1 : intRepr n = natDec n.toNat := if_neg hneg
    rw [h1]
    unfold pyInt
    rw [pyStrip_natDec]
    rcases hbr : natDec n.toNat with _ | ⟨b, rest⟩
    · exact absurd hbr (natDec_ne_nil _)
    · have hb : isDigit b = true :=
        natDec_digits _ b (by rw [hbr]; exact List.mem_cons_self b rest)
      have hb48 := isDigit_le b hb
      have hp : (b == PLUS) = false := by
        simp only [beq_eq_false_iff_ne]
        intro he
        rw [he, show (PLUS : Nat) = 43 from rfl] at hb48
        omega
      have hd : (b == DASH) = false := by
        simp only [beq_eq_false_iff_ne]
        intro he
        rw [he, show (DASH : Nat) = 45 from rfl] at hb48
        omega
      have hdu : digitsU (b :: rest) = true := by
        rw [← hbr]
        exact digitsU_natDec _
      dsimp only
      rw [if_neg (by simp [hp]), if_neg (by simp [hd]), if_pos hdu]
      simp only [Option.some.injEq, ← hbr, digitsVal_natDec, Int.ofNat_eq_natCast]
      omega

/-! ## Float-literal and quoting lemmas -/

theorem digitsUAux_mem : ∀ (n : Nat) (s : Bytes), s.length ≤ n → digitsUAux s = true →
    ∀ b ∈ s, isDigit b = true ∨ b = USCORE := by
  intro n
  induction n with
  | zero =>
    intro s hlen _ b hb
    have hs : s = [] := List.eq_nil_of_length_eq_zero (Nat.le_zero.mp hlen)
    rw [hs] at hb
    simp at hb
  | succ k ih =>
    intro s hlen hd b hb
    cases s with
    | nil => simp at hb
    | cons c t =>
      rw [digitsUAux.eq_def] at hd
      dsimp only at hd
      by_cases hc : isDigit c = true
      · rw [if_pos hc] at hd
        rcases List.mem_cons.mp hb with h1 | h1
        · rw [h1]
          exact Or.inl hc
        · refine ih t ?_ hd b h1
          simp only [List.length_cons] at hlen
          omega
      · rw [if_neg hc] at hd
        by_cases hu : (c == USCORE) = true
        · rw [if_pos hu] at hd
          cases t with
          | nil => cases hd
          | cons d t2 =>
            rw [Bool.and_eq_true] at hd
            rcases List.mem_cons.mp hb with h1 | h1
            · rw [h1]
              exact Or.inr (beq_iff_eq.mp hu)
            · rcases List.mem_cons.mp h1 with h2 | h2
              · rw [h2]
                exact Or.inl hd.1
              · refine ih t2 ?_ hd.2 b h2
                simp only [List.length_cons] at hlen
                omega
        · rw [if_neg hu] at hd
          cases hd

theorem digitsU_mem (s : Bytes) (h : digitsU s = true) :
    ∀ b ∈ s, isDigit b = true ∨ b = USCORE := by
  cases s with
  | nil => simp
  | cons c t =>
    rw [digitsU, Bool.and_eq_true] at h
    intro b hb
    rcases List.mem_cons.mp hb with h1 | h1
    · rw [h1]
      exact Or.inl h.1
    · exact digitsUAux_mem t.length t (le_refl _) h.2 b h1

theorem not_dot_of_digitsU (s : Bytes) (h : digitsU s = true) : DOT ∉ s := by
  intro hmem
  rcases digitsU_mem s h DOT hmem with h1 | h1
  · have h2 := isDigit_le DOT h1
    rw [show (DOT : Nat) = 46 from rfl] at h2
    omega
  · exact absurd h1 (by decide)

theorem isELetter_false_of (b : Nat) (h1 : b ≠ 101) (h2 : b ≠ 69) :
    isELetter b = false := by
  simp only [isELetter, Bool.or_eq_false_iff, beq_eq_false_iff_ne]
  exact ⟨h1, h2⟩

theorem isELetter_false_of_digitsU (s : Bytes) (h : digitsU s = true) :
    ∀ b ∈ s, isELetter b = false := by
  intro b hb
  rcases digitsU_mem s h b hb with h1 | h1
  · have h2 := isDigit_le b h1
    refine isELetter_false_of b ?_ ?_ <;>
      · intro he
        rw [he] at h2
        omega
  · rw [h1]
    decide

theorem mantissaOK_of_digitsU (s : Bytes) (h : digitsU s = true) :
    mantissaOK s = true := by
  unfold mantissaOK
  rw [findSub_single_none DOT s (not_dot_of_digitsU s h)]
  exact h

theorem floatBody_of_digitsU (s : Bytes) (h : digitsU s = true) :
    floatBody s = true := by
  unfold floatBody
  rw [show s.findIdx? isELetter = none from
    List.findIdx?_eq_none_iff.mpr (isELetter_false_of_digitsU s h)]
  exact mantissaOK_of_digitsU s h

theorem pyInt_some_isPyFloat (s : Bytes) (n : Int) (h : pyInt s = some n) :
    isPyFloat s = true := by
  unfold pyInt at h
  unfold isPyFloat
  rcases hps : pyStrip s with _ | ⟨b, rest⟩
  · rw [hps] at h
    dsimp only at h
    cases h
  · rw [hps] at h
    dsimp only at h
    dsimp only
    by_cases hp : (b == PLUS) = true
    · rw [if_pos hp] at h
      by_cases hdu : digitsU rest = true
      · have hc : (b == PLUS || b == DASH) = true := by rw [hp]; rfl
        rw [if_pos hc, floatBody_of_digitsU rest hdu]
        simp
      · rw [if_neg hdu] at h
        cases h
    · rw [if_neg hp] at h
      have hp2 : (b == PLUS) = false := by
        rwa [Bool.not_eq_true] at hp
      by_cases hd : (b == DASH) = true
      · rw [if_pos hd] at h
        by_cases hdu : digitsU rest = true
        · have hc : (b == PLUS || b == DASH) = true := by rw [hp2, hd]; rfl
          rw [if_pos hc, floatBody_of_digitsU rest hdu]
          simp
        · rw [if_neg hdu] at h
          cases h
      · rw [if_neg hd] at h
        have hd2 : (b == DASH) = false := by
          rwa [Bool.not_eq_true] at hd
        by_cases hdu : digitsU (b :: rest) = true
        · have hc : (b == PLUS || b == DASH) = false := by rw [hp2, hd2]; rfl
          rw [if_neg (by simp [hc]), floatBody_of_digitsU _ hdu]
          simp
        · rw [if_neg hdu] at h
          cases h

theorem pyStrip_quoteB (s : Bytes) : pyStrip (quoteB s) = quoteB s := by
  apply pyStrip_eq_self
  · rfl
  · have h : (quoteB s).getLastD 0 = QUOTE := by
      rw [List.getLastD_eq_getLast?, show quoteB s = (QUOTE :: s) ++ [QUOTE] from rfl,
        List.getLast?_concat]
      rfl
    rw [h]
    rfl

theorem digitsU_quote_head (t : Bytes) : digitsU (QUOTE :: t) = false := by
  rw [digitsU, show isDigit QUOTE = false from by decide]
  rfl

theorem mantissaOK_quote_head (t : Bytes) : mantissaOK (QUOTE :: t) = false := by
  unfold mantissaOK
  have hsw : startsWithB (QUOTE :: t) [DOT] = false := by
    simp [startsWithB, QUOTE, DOT]
  rcases hfs : findSub [DOT] (QUOTE :: t) with _ | i
  · exact digitsU_quote_head t
  · dsimp only
    cases i with
    | zero =>
      exfalso
      rw [findSub, hsw, if_neg (by simp)] at hfs
      rcases hft : findSub [DOT] t with _ | j <;> rw [hft] at hfs <;> simp at hfs
    | succ j =>
      rw [List.take_succ_cons]
      have hda : digitsU (QUOTE :: List.take j t) = false := digitsU_quote_head _
      simp [hda]

theorem floatBody_quote_head (t : Bytes) : floatBody (QUOTE :: t) = false := by
  unfold floatBody
  rcases hfi : (QUOTE :: t).findIdx? isELetter with _ | i
  · exact mantissaOK_quote_head t
  · dsimp only
    cases i with
    | zero =>
      exfalso
      rw [List.findIdx?_cons, show isELetter QUOTE = false from by decide,
        if_neg (by simp), List.findIdx?_succ] at hfi
      rcases hft : t.findIdx? isELetter with _ | j <;> rw [hft] at hfi <;> simp at hfi
    | succ j =>
      rw [List.take_succ_cons, mantissaOK_quote_head]
      rfl

theorem isInfNan_quote_head (t : Bytes) : isInfNan (QUOTE :: t) = false := by
  unfold isInfNan
  simp only [List.map_cons, show toLowerB QUOTE = QUOTE from by decide]
  have h1 : (QUOTE :: t.map toLowerB == ascii "inf") = false := by
    simp only [beq_eq_false_iff_ne]
    intro h
    have h2 : QUOTE :: t.map toLowerB = 105 :: [110, 102] := h
    injection h2 with hh _
    exact absurd hh (by decide)
  have h2 : (QUOTE :: t.map toLowerB == ascii "infinity") = false := by
    simp only [beq_eq_false_iff_ne]
    intro h
    have h3 : QUOTE :: t.map toLowerB = 105 :: [110, 102, 105, 110, 105, 116, 121] := h
    injection h3 with hh _
    exact absurd hh (by decide)
  have h3 : (QUOTE :: t.map toLowerB == ascii "nan") = false := by
    simp only [beq_eq_false_iff_ne]
    intro h
    have h4 : QUOTE :: t.map toLowerB = 110 :: [97, 110] := h
    injection h4 with hh _
    exact absurd hh (by decide)
  rw [h1, h2, h3]
  rfl

theorem isPyFloat_quoteB (s : Bytes) : isPyFloat (quoteB s) = false := by
  unfold isPyFloat
  rw [pyStrip_quoteB, show quoteB s = QUOTE :: (s ++ [QUOTE]) from rfl]
  dsimp only
  rw [if_neg (by rw [show ((QUOTE == PLUS || QUOTE == DASH) : Bool) = false from by decide]; simp),
    isInfNan_quote_head, floatBody_quote_head]
  rfl

theorem pyInt_quoteB (s : Bytes) : pyInt (quoteB s) = none := by
  unfold pyInt
  rw [pyStrip_quoteB, show quoteB s = QUOTE :: (s ++ [QUOTE]) from rfl]
  dsimp only
  rw [if_neg (by rw [show ((QUOTE == PLUS) : Bool) = false from by decide]; simp),
    if_neg (by rw [show ((QUOTE == DASH) : Bool) = false from by decide]; simp),
    if_neg (by rw [digitsU_quote_head]; simp)]

theorem unquoteIf_quoteB (s : Bytes) : unquoteIf (quoteB s) = s := by
  unfold unquoteIf
  rw [if_pos ?_]
  · rw [show quoteB s = QUOTE :: (s ++ [QUOTE]) from rfl]
    rw [show (QUOTE :: (s ++ [QUOTE])).drop 1 = s ++ [QUOTE] from rfl,
      List.dropLast_concat]
  · rw [Bool.and_eq_true]
    constructor
    · simp [startsWithB]
    · rw [show quoteB s = (QUOTE :: s) ++ [QUOTE] from rfl, List.getLast?_concat]
      simp

theorem quoteB_ne_trueB (s : Bytes) : quoteB s ≠ ascii "True" := by
  intro h
  have h2 : QUOTE :: (s ++ [QUOTE]) = 84 :: [114, 117, 101] := h
  injection h2 with hh _
  exact absurd hh (by decide)

theorem quoteB_ne_falseB (s : Bytes) : quoteB s ≠ ascii "False" := by
  intro h
  have h2 : QUOTE :: (s ++ [QUOTE]) = 70 :: [97, 108, 115, 101] := h
  injection h2 with hh _
  exact absurd hh (by decide)

/-! ## Per-line round trip of the header codec -/

/-- The name part of a header line as `_generate_header_bytes` emits it
(quoted when an end is whitespace); `[]` only for the empty name, which the
encoder rejects. -/
def encNameF (name : Bytes) : Bytes :=
  match name with
  | [] => []
  | b :: _ => if isPySpace b || isPySpace (name.getLastD 0) then quoteB name else name

/-- The contents part of a header line as `_generate_header_bytes` emits it. -/
def encValF : PyVal → Bytes
  | .int n => intRepr n
  | .float lit => lit
  | .bool b => if b then ascii "True" else ascii "False"
  | .str s =>
    match s with
    | [] => []
    | b :: _ =>
      let s1 := if isPySpace b || isPySpace (s.getLastD 0) then quoteB s else s
      let s2 := if isPyFloat s1 then quoteB s1 else s1
      if s2 = ascii "True" || s2 = ascii "False" then quoteB s2 else s2

/-- Restriction on header names under which the codec round-trips: nonempty,
no newline (it would break the line structure), no colon (`split(':', 1)`
splits at the first colon), and — when its ends carry no whitespace, so the
encoder leaves it bare — not already wrapped in double quotes (the decoder
would strip them). -/
@[reducible] def NameOK (name : Bytes) : Prop :=
  name ≠ [] ∧ (∀ b ∈ name, b ≠ NL ∧ b ≠ COLON) ∧
  ((isPySpace (name.headD 0) || isPySpace (name.getLastD 0)) = false →
    ¬(startsWithB name [QUOTE] = true ∧ name.getLast? = some QUOTE))

/-- Restriction on string header values under which the codec round-trips:
nonempty, newline-free, and not bare-quote-wrapped when the encoder would
leave it bare (no whitespace ends, not a float literal, not `True`/`False`). -/
@[reducible] def StrOK (s : Bytes) : Prop :=
  s ≠ [] ∧ (∀ b ∈ s, b ≠ NL) ∧
  ((isPySpace (s.headD 0) || isPySpace (s.getLastD 0)) = false →
    isPyFloat s = false → s ≠ ascii "True" → s ≠ ascii "False" →
    ¬(startsWithB s [QUOTE] = true ∧ s.getLast? = some QUOTE))

/-- Values the amended round-trip claim covers: integers and booleans
unrestricted, strings satisfying `StrOK`; floats are excluded (their decoded
form records the literal, and `str(float)` re-rendering is outside the
embedding). -/
@[reducible] def ValOK : PyVal → Prop
  | .int _ => True
  | .float _ => False
  | .bool _ => True
  | .str s => StrOK s

theorem mem_quoteB (b : Byte) (s : Bytes) (h : b ∈ quoteB s) : b = QUOTE ∨ b ∈ s := by
  rcases List.mem_cons.mp h with h1 | h1
  · exact Or.inl h1
  · rcases List.mem_append.mp h1 with h2 | h2
    · exact Or.inr h2
    · exact Or.inl (by simpa using h2)

theorem encNameF_cases (name : Bytes) (hne : name ≠ []) :
    encNameF name = quoteB name ∨
    (encNameF name = name ∧
      (isPySpace (name.headD 0) || isPySpace (name.getLastD 0)) = false) := by
  rcases name with _ | ⟨b, nt⟩
  · exact absurd rfl hne
  · unfold encNameF
    dsimp only
    by_cases hg : (isPySpace b || isPySpace ((b :: nt).getLastD 0)) = true
    · rw [if_pos hg]
      exact Or.inl rfl
    · rw [if_neg hg]
      refine Or.inr ⟨rfl, ?_⟩
      show (isPySpace b || isPySpace ((b :: nt).getLastD 0)) = false
      rwa [Bool.not_eq_true] at hg

theorem unquoteIf_eq_self (s : Bytes)
    (h : ¬(startsWithB s [QUOTE] = true ∧ s.getLast? = some QUOTE)) :
    unquoteIf s = s := by
  have hcf : ¬((startsWithB s [QUOTE] && s.getLast? == some QUOTE) = true) := by
    intro hc
    rw [Bool.and_eq_true] at hc
    exact h ⟨hc.1, beq_iff_eq.mp hc.2⟩
  unfold unquoteIf
  rw [if_neg hcf]

theorem pyStrip_intRepr (n : Int) : pyStrip (intRepr n) = intRepr n := by
  unfold intRepr
  by_cases hneg : n < 0
  · rw [if_pos hneg]
    apply pyStrip_eq_self
    · rfl
    · rcases List.mem_cons.mp
          (getLastD_mem (DASH :: natDec (-n).toNat) 0 (by simp)) with h2 | h2
      · rw [h2]
        rfl
      · exact isPySpace_of_digit _ (natDec_digits _ _ h2)
  · rw [if_neg hneg]
    exact pyStrip_natDec _

theorem intRepr_mem (n : Int) (b : Byte) (hb : b ∈ intRepr n) :
    b = DASH ∨ isDigit b = true := by
  unfold intRepr at hb
  by_cases hneg : n < 0
  · rw [if_pos hneg] at hb
    rcases List.mem_cons.mp hb with h1 | h1
    · exact Or.inl h1
    · exact Or.inr (natDec_digits _ _ h1)
  · rw [if_neg hneg] at hb
    exact Or.inr (natDec_digits _ _ hb)

theorem nl_not_mem_intRepr (n : Int) : NL ∉ intRepr n := by
  intro h
  rcases intRepr_mem n NL h with h1 | h1
  · exact absurd h1 (by decide)
  · have h2 := isDigit_le NL h1
    rw [show (NL : Nat) = 10 from rfl] at h2
    omega

theorem encValF_str_cases (s : Bytes) (hne : s ≠ []) :
    encValF (.str s) = quoteB s ∨
    (encValF (.str s) = s ∧
      (isPySpace (s.headD 0) || isPySpace (s.getLastD 0)) = false ∧
      isPyFloat s = false ∧ s ≠ ascii "True" ∧ s ≠ ascii "False") := by
  rcases s with _ | ⟨c, st⟩
  · exact absurd rfl hne
  · unfold encValF
    dsimp only
    by_cases hg : (isPySpace c || isPySpace ((c :: st).getLastD 0)) = true
    · rw [if_pos hg]
      rw [if_neg (by simp [isPyFloat_quoteB]
                     exact ⟨quoteB_ne_trueB _, quoteB_ne_falseB _⟩)]
      rw [if_neg (by simp [isPyFloat_quoteB])]
      exact Or.inl rfl
    · rw [if_neg hg]
      by_cases hf : isPyFloat (c :: st) = true
      · rw [if_neg (by simp [hf]
                       exact ⟨quoteB_ne_trueB _, quoteB_ne_falseB _⟩)]
        rw [if_pos hf]
        exact Or.inl rfl
      · have hf2 : isPyFloat (c :: st) = false := by rwa [Bool.not_eq_true] at hf
        by_cases hT : (c :: st) = ascii "True"
        · rw [if_pos (by simp [hT, show isPyFloat (ascii "True") = false from by decide]),
            if_neg hf]
          exact Or.inl rfl
        · by_cases hF : (c :: st) = ascii "False"
          · rw [if_pos (by simp [hF, show isPyFloat (ascii "False") = false from by decide]),
              if_neg hf]
            exact Or.inl rfl
          · rw [if_neg (by simp [hf2, hT, hF]), if_neg hf]
            refine Or.inr ⟨rfl, ?_, hf2, hT, hF⟩
            show (isPySpace c || isPySpace ((c :: st).getLastD 0)) = false
            rwa [Bool.not_eq_true] at hg

theorem generate_eq (name : Bytes) (v : PyVal) (hn : name ≠ [])
    (hs : ∀ s, v = PyVal.str s → s ≠ []) :
    generateHeaderBytes name v = .ok (encNameF name ++ COLON :: SP :: (encValF v ++ [NL])) := by
  rcases name with _ | ⟨b, nt⟩
  · exact absurd rfl hn
  · cases v with
    | int n => rfl
    | float lit => rfl
    | bool bb => rfl
    | str s =>
      rcases s with _ | ⟨c, st⟩
      · exact absurd rfl (hs [] rfl)
      · rfl

theorem decode_body (name qn cv : Bytes)
    (hqc : COLON ∉ qn)
    (hstrip_q : pyStrip qn = qn)
    (hunq : unquoteIf qn = name)
    (hstrip_cv : pyStrip cv = cv)
    (v : PyVal)
    (hval : ((match pyInt cv with
             | some n => Except.ok (name, PyVal.int n)
             | none =>
               if isPyFloat cv then Except.ok (name, PyVal.float cv)
               else if cv = ascii "True" then Except.ok (name, PyVal.bool true)
               else if cv = ascii "False" then Except.ok (name, PyVal.bool false)
               else Except.ok (name, PyVal.str (unquoteIf cv)))
        : Except Unit (Bytes × PyVal)) = Except.ok (name, v)) :
    decodeHeaderLine (qn ++ COLON :: SP :: cv) = .ok (name, v) := by
  unfold decodeHeaderLine
  rw [findSub_single_some COLON qn (SP :: cv) hqc]
  dsimp only
  rw [List.take_append_of_le_length (le_refl _), List.take_length,
    List.drop_append 1, show (COLON :: SP :: cv).drop 1 = SP :: cv from rfl,
    hstrip_q, pyStrip_space_cons, hstrip_cv, hunq]
  exact hval

theorem line_round_trip (name : Bytes) (v : PyVal)
    (hname : NameOK name) (hv : ValOK v) :
    generateHeaderBytes name v = .ok ((encNameF name ++ COLON :: SP :: encValF v) ++ [NL]) ∧
    (encNameF name ++ COLON :: SP :: encValF v) ≠ [] ∧
    NL ∉ (encNameF name ++ COLON :: SP :: encValF v) ∧
    decodeHeaderLine (encNameF name ++ COLON :: SP :: encValF v) = .ok (name, v) := by
  obtain ⟨hne, hmem, hq⟩ := hname
  have hqn_cases := encNameF_cases name hne
  have hqn_mem : ∀ b ∈ encNameF name, b ≠ NL ∧ b ≠ COLON := by
    rcases hqn_cases with h | ⟨h, _⟩ <;> rw [h]
    · intro b hb
      rcases mem_quoteB b name hb with h1 | h1
      · rw [h1]
        exact ⟨by decide, by decide⟩
      · exact hmem b h1
    · exact hmem
  have hcolon : COLON ∉ encNameF name := fun hc => (hqn_mem COLON hc).2 rfl
  have hstrip_q : pyStrip (encNameF name) = encNameF name := by
    rcases hqn_cases with h | ⟨h, hg⟩ <;> rw [h]
    · exact pyStrip_quoteB name
    · rw [Bool.or_eq_false_iff] at hg
      exact pyStrip_eq_self name hg.1 hg.2
  have hunq : unquoteIf (encNameF name) = name := by
    rcases hqn_cases with h | ⟨h, hg⟩ <;> rw [h]
    · exact unquoteIf_quoteB name
    · exact unquoteIf_eq_self name (hq hg)
  have hsne : ∀ s, v = PyVal.str s → s ≠ [] := by
    intro s hs
    rw [hs] at hv
    exact hv.1
  -- the three value-side facts, by cases on the value
  have hvfacts : NL ∉ encValF v ∧ pyStrip (encValF v) = encValF v ∧
      ((match pyInt (encValF v) with
       | some n => Except.ok (name, PyVal.int n)
       | none =>
         if isPyFloat (encValF v) then Except.ok (name, PyVal.float (encValF v))
         else if encValF v = ascii "True" then Except.ok (name, PyVal.bool true)
         else if encValF v = ascii "False" then Except.ok (name, PyVal.bool false)
         else Except.ok (name, PyVal.str (unquoteIf (encValF v))))
        : Except Unit (Bytes × PyVal)) = Except.ok (name, v) := by
    cases v with
    | float lit => exact hv.elim
    | int n =>
      rw [show encValF (PyVal.int n) = intRepr n from rfl]
      refine ⟨nl_not_mem_intRepr n, pyStrip_intRepr n, ?_⟩
      rw [pyInt_intRepr n]
    | bool bb =>
      cases bb with
      | true =>
        rw [show encValF (PyVal.bool true) = ascii "True" from rfl]
        refine ⟨by decide, by decide, ?_⟩
        rw [show pyInt (ascii "True") = none from by decide]
        dsimp only
        rw [if_neg (by rw [show isPyFloat (ascii "True") = false from by decide]; simp),
          if_pos rfl]
      | false =>
        rw [show encValF (PyVal.bool false) = ascii "False" from rfl]
        refine ⟨by decide, by decide, ?_⟩
        rw [show pyInt (ascii "False") = none from by decide]
        dsimp only
        rw [if_neg (by rw [show isPyFloat (ascii "False") = false from by decide]; simp),
          if_neg (by decide), if_pos rfl]
    | str s =>
      obtain ⟨hsne2, hsnl, hsq⟩ := hv
      rcases encValF_str_cases s hsne2 with hC | ⟨hC, hg, hf, hT, hF⟩
      · rw [hC]
        refine ⟨?_, pyStrip_quoteB s, ?_⟩
        · intro h
          rcases mem_quoteB NL s h with h1 | h1
          · exact absurd h1 (by decide)
          · exact hsnl NL h1 rfl
        · rw [pyInt_quoteB s]
          dsimp only
          rw [if_neg (by rw [isPyFloat_quoteB]; simp), if_neg (quoteB_ne_trueB s),
            if_neg (quoteB_ne_falseB s), unquoteIf_quoteB]
      · rw [hC]
        refine ⟨fun h => hsnl NL h rfl, ?_, ?_⟩
        · rw [Bool.or_eq_false_iff] at hg
          exact pyStrip_eq_self s hg.1 hg.2
        · have hpi : pyInt s = none := by
            rcases hpi2 : pyInt s with _ | n
            · rfl
            · rw [pyInt_some_isPyFloat s n hpi2] at hf
              cases hf
          rw [hpi]
          dsimp only
          rw [if_neg (by rw [hf]; simp), if_neg hT, if_neg hF,
            unquoteIf_eq_self s (hsq (by rwa [Bool.or_eq_false_iff] at hg ⊢) hf hT hF)]
  obtain ⟨hcv_nl, hstrip_cv, hval⟩ := hvfacts
  refine ⟨?_, ?_, ?_, decode_body name (encNameF name) (encValF v) hcolon hstrip_q hunq
    hstrip_cv v hval⟩
  · rw [generate_eq name v hne hsne]
    simp [List.append_assoc]
  · rcases hqn_cases with h | ⟨h, _⟩ <;> rw [h] <;> simp [quoteB]
  · intro h
    rcases List.mem_append.mp h with h1 | h1
    · exact (hqn_mem NL h1).1 rfl
    · rcases List.mem_cons.mp h1 with h2 | h2
      · exact absurd h2 (by decide)
      · rcases List.mem_cons.mp h2 with h3 | h3
        · exact absurd h3 (by decide)
        · exact hcv_nl h3

/-! ## Block-level round trip -/

/-- The body (line without its terminating newline) one header entry encodes to. -/
def bodyF (p : Bytes × PyVal) : Bytes := encNameF p.1 ++ COLON :: SP :: encValF p.2

instance instDecidableValOK : (v : PyVal) → Decidable (ValOK v)
  | .int _ => isTrue trivial
  | .float _ => isFalse (fun h => h)
  | .bool _ => isTrue trivial
  | .str s => inferInstanceAs (Decidable (StrOK s))

theorem mapM_generate (h : Headers) (hok : ∀ p ∈ h, NameOK p.1 ∧ ValOK p.2) :
    h.mapM (fun p => generateHeaderBytes p.1 p.2)
      = .ok ((h.map bodyF).map (fun s => s ++ [NL])) := by
  induction h with
  | nil => rfl
  | cons p t ih =>
    obtain ⟨hn, hvv⟩ := hok p (List.mem_cons_self p t)
    obtain ⟨he, _, _, _⟩ := line_round_trip p.1 p.2 hn hvv
    rw [List.mapM_cons, he, ih (fun q hq => hok q (List.mem_cons_of_mem p hq))]
    rfl

theorem foldlM_decode (bodies : List Bytes) (pairs : Headers) (acc : Headers)
    (hfa : List.Forall₂ (fun b p => decodeHeaderLine b = .ok p) bodies pairs)
    (hfresh : ∀ p ∈ pairs, acc.any (fun q => q.1 == p.1) = false)
    (hpw : List.Pairwise (fun p q => p.1 ≠ q.1) pairs) :
    bodies.foldlM
      (fun acc2 line => (decodeHeaderLine line).map (fun pr => dictInsert acc2 pr.1 pr.2))
      acc = .ok (acc ++ pairs) := by
  induction hfa generalizing acc with
  | nil => rw [List.append_nil]; rfl
  | @cons b p bs ps h1 h2 ih =>
    rw [List.foldlM_cons, h1]
    have hins : dictInsert acc p.1 p.2 = acc ++ [p] := by
      unfold dictInsert
      rw [hfresh p (List.mem_cons_self p ps)]
      simp
    have hfresh2 : ∀ q ∈ ps, (acc ++ [p]).any (fun r => r.1 == q.1) = false := by
      intro q hq
      rw [List.any_append, hfresh q (List.mem_cons_of_mem p hq)]
      simp only [List.any_cons, List.any_nil, Bool.or_false, Bool.false_or,
        beq_eq_false_iff_ne]
      exact (List.pairwise_cons.mp hpw).1 q hq
    have hrec := ih (acc ++ [p]) hfresh2 (List.pairwise_cons.mp hpw).2
    simp only [List.append_assoc, List.singleton_append] at hrec
    rw [← hins] at hrec
    exact hrec

theorem decfa_of_ok (h : Headers) (hok : ∀ p ∈ h, NameOK p.1 ∧ ValOK p.2) :
    List.Forall₂ (fun b p => decodeHeaderLine b = .ok p) (h.map bodyF) h := by
  induction h with
  | nil => exact List.Forall₂.nil
  | cons p t ih =>
    obtain ⟨hn, hvv⟩ := hok p (List.mem_cons_self p t)
    obtain ⟨_, _, _, h4⟩ := line_round_trip p.1 p.2 hn hvv
    exact List.Forall₂.cons h4 (ih (fun q hq => hok q (List.mem_cons_of_mem p hq)))

/-- C2 (amended): for a non-empty header mapping with pairwise-distinct names,
each name satisfying `NameOK` (no newline or colon; not bare-quote-wrapped when
the encoder leaves it unquoted) and each value an integer, a boolean, or a
`StrOK` string, encoding with `PacketHandler.send`'s `_generate_header_bytes`
and decoding the wire bytes with `PacketHandler._get_headers` returns exactly
the original mapping, kinds preserved. -/
theorem header_codec_round_trip (h : Headers) (hne : h ≠ [])
    (hpw : List.Pairwise (fun p q => p.1 ≠ q.1) h)
    (hok : ∀ p ∈ h, NameOK p.1 ∧ ValOK p.2) :
    encodeThenDecode h = .ok h := by
  have hprops : ∀ b ∈ h.map bodyF, b ≠ [] ∧ NL ∉ b := by
    intro b hb
    obtain ⟨p, hp, hbp⟩ := List.mem_map.mp hb
    obtain ⟨hn, hvv⟩ := hok p hp
    obtain ⟨_, h2, h3, _⟩ := line_round_trip p.1 p.2 hn hvv
    rw [← hbp]
    exact ⟨h2, h3⟩
  have hdecfa := decfa_of_ok h hok
  have henc : encodeHeaderBlock h = .ok (((h.map bodyF).map (fun s => s ++ [NL])).flatten) := by
    unfold encodeHeaderBlock
    rw [mapM_generate h hok]
    rfl
  have hbne : h.map bodyF ≠ [] := by
    intro hc
    exact hne (List.map_eq_nil_iff.mp hc)
  obtain ⟨bs, lastb, hbs⟩ : ∃ bs lastb, h.map bodyF = bs ++ [lastb] := by
    rcases List.eq_nil_or_concat (h.map bodyF) with hc | ⟨bs, lastb, hc⟩
    · exact absurd hc hbne
    · rw [List.concat_eq_append] at hc
      exact ⟨bs, lastb, hc⟩
  have hw : (((h.map bodyF).map (fun s => s ++ [NL])).flatten)
      = ((bs.map (fun s => s ++ [NL])).flatten ++ lastb) ++ [NL] := by
    rw [hbs]
    simp [List.append_assoc]
  have hnoterm : findSub [NL, NL]
      (((bs.map (fun s => s ++ [NL])).flatten ++ lastb) ++ [NL]) = none := by
    rw [← hw]
    exact block_no_term (h.map bodyF) hprops
  have hsplit2 : splitOnByte NL ((bs.map (fun s => s ++ [NL])).flatten ++ lastb)
      = h.map bodyF := by
    rw [hbs]
    refine splitOnByte_block bs lastb ?_ ?_
    · intro b hb
      exact (hprops b (by rw [hbs]; exact List.mem_append_left _ hb)).2
    · exact (hprops lastb
        (by rw [hbs]; exact List.mem_append_right _ (List.mem_cons_self _ _))).2
  have hdec : decodeHeaderBlock ((bs.map (fun s => s ++ [NL])).flatten ++ lastb)
      = .ok h := by
    unfold decodeHeaderBlock
    rw [hsplit2]
    have := foldlM_decode (h.map bodyF) h [] hdecfa (fun p hp => rfl) hpw
    simpa using this
  unfold encodeThenDecode
  rw [henc]
  dsimp only
  unfold getHeaders
  have hbuf : (((h.map bodyF).map (fun s => s ++ [NL])).flatten) ++ [NL]
      = ((bs.map (fun s => s ++ [NL])).flatten ++ lastb) ++ NL :: NL :: ([] : Bytes) := by
    rw [hw]
    simp
  rw [hbuf, getHeadersLoop, findSub_boundary _ [] hnoterm]
  dsimp only
  rw [List.take_append_of_le_length (le_refl _), List.take_length, hdec]
  rfl

set_option maxRecDepth 100000 in
/-- Witness for the amended C2 round trip: a mapping exercising a negative
integer, a name with whitespace ends, a string value with an embedded colon, a
boolean, and a float-shaped string value. -/
theorem header_codec_round_trip_witness :
    encodeThenDecode
      [(ascii "Name", PyVal.int (-7)), (ascii " sp ", PyVal.str (ascii "a: b")),
       (ascii "Flag", PyVal.bool true), (ascii "S", PyVal.str (ascii "3.5"))] =
      .ok [(ascii "Name", PyVal.int (-7)), (ascii " sp ", PyVal.str (ascii "a: b")),
       (ascii "Flag", PyVal.bool true), (ascii "S", PyVal.str (ascii "3.5"))] :=
  header_codec_round_trip _ (by decide) (by decide) (by decide)

/-! ## Claim theorems -/

/-- C6: header value coercion is attempted in the fixed order integer, then
float, then boolean, then string: the header contents `255` decode to
Integer 255, `3.1415927` to a Float, `True`/`False` to Booleans, and `None`
to the three-character String `None` (there is no null kind). -/
theorem header_coercion_order :
    decodeHeaderLine (ascii "N: 255") = .ok (ascii "N", .int 255) ∧
    decodeHeaderLine (ascii "N: 3.1415927") = .ok (ascii "N", .float (ascii "3.1415927")) ∧
    decodeHeaderLine (ascii "N: True") = .ok (ascii "N", .bool true) ∧
    decodeHeaderLine (ascii "N: False") = .ok (ascii "N", .bool false) ∧
    decodeHeaderLine (ascii "N: None") = .ok (ascii "N", .str (ascii "None")) := by
  decide

/-- C9 (counterexample): on a wire stream that begins directly with the
blank-line terminator `\n\n`, `PacketHandler.get` does not succeed with an
empty header mapping — decoding the empty header block raises a `ValueError`
(unpacking `''.split(':', 1)` into two names fails). -/
theorem get_headerless_packet_counterexample :
    PacketHandler.get [[NL, NL]] = .error .pyError := by decide

/-- C9 (amended): every packet must carry at least one header line: whenever
the byte stream begins with the terminator `\n\n`, `PacketHandler.get`
raises the `ValueError` modelled by `pyError`, whatever bytes follow. -/
theorem get_headerless_packet_pyerror (rest : Bytes) (chunks : List Bytes) :
    PacketHandler.get ((NL :: NL :: rest) :: chunks) = .error .pyError := by
  have h1 : getHeadersLoop ((NL :: NL :: rest) :: chunks) [] = .ok ([], rest, chunks) := by
    rw [getHeadersLoop]
    norm_num [findSub, startsWithB, NL]
    cases chunks <;> rw [getHeadersLoop] <;> simp [findSub, startsWithB, NL]
  unfold PacketHandler.get getHeaders
  rw [h1]
  rfl

/-- C8 (counterexample): `Patcher._get_hunks` does not return zero hunks on
every input without an `@@` line: a single non-header line becomes a hunk of
its own. -/
theorem get_hunks_no_marker_counterexample :
    getHunks [ascii "x\n"] = [[ascii "x\n"]] ∧
    [[ascii "x\n"]] ≠ ([] : List (List Bytes)) := by decide

/-- C8 (amended): `Patcher._get_hunks` discards every `---`/`+++` line,
starts a new hunk at every `@@` line (closing the previous open hunk),
appends every other line to the hunk in progress, and closes the last open
hunk at end of input — but lines before the first `@@` do not vanish: they
open a headerless initial hunk, so an input with no `@@` line yields zero
hunks only when it contains nothing but `---`/`+++` lines. -/
theorem get_hunks_spec (diff : List Bytes) : getHunks diff = hunksSpec diff := by
  rw [getHunks, hunksSpec, getHunksGo_spec, prependOpen_nil_hunk]
  simp

/-- C3: `PacketHandler.get` is chunking-invariant: for a wire byte sequence
forming one complete packet (header block, terminator, exactly-`Size` body),
every partition of that sequence into successive non-empty `recv` chunks
yields the same `(headers, body)` result — in particular the body read
returns exactly the `Size` bytes (`None` for a zero-byte body, Python's
implicit return). -/
theorem packet_get_chunk_invariant (hdr body : Bytes) (h : Headers) (n : Int)
    (chunks : List Bytes)
    (hsplit : chunks.flatten = hdr ++ NL :: NL :: body)
    (hnoterm : findSub [NL, NL] (hdr ++ [NL]) = none)
    (hdec : decodeHeaderBlock hdr = .ok h)
    (hsize : sizeVal h = .ok n)
    (hn : n = (body.length : Int))
    (hne : [] ∉ chunks) :
    PacketHandler.get chunks = .ok (h, if body.isEmpty then none else some body) := by
  have htot : findSub [NL, NL] ([] ++ chunks.flatten) = some hdr.length := by
    rw [List.nil_append, hsplit]
    exact findSub_boundary hdr body hnoterm
  obtain ⟨buf', chunks', h1, h2, h3⟩ := getHeadersLoop_found chunks [] hdr.length hne htot
  have htake : ([] ++ chunks.flatten).take hdr.length = hdr := by
    rw [List.nil_append, hsplit, List.take_append_of_le_length (Nat.le_refl _),
      List.take_length]
  have hdrop : buf' ++ chunks'.flatten = body := by
    rw [h2, List.nil_append, hsplit, List.drop_append 2]
    rfl
  have hgh : getHeaders chunks [] = .ok (h, buf', chunks') := by
    unfold getHeaders
    rw [h1, htake]
    dsimp only
    rw [hdec]
  unfold PacketHandler.get
  rw [hgh]
  dsimp only
  rw [hsize]
  dsimp only
  by_cases hb : body = []
  · have hzero : ¬((0 : Int) < n) := by
      rw [hn, hb]
      simp
    rw [getBytesLoop_done n chunks' buf' 0 [] hzero]
    dsimp only
    rw [hb]
    simp
  · have hpos : (0 : Int) < n := by
      rw [hn]
      have : 1 ≤ body.length := by
        cases body with
        | nil => exact absurd rfl hb
        | cons _ _ => simp
      omega
    have hlen : ((buf' ++ chunks'.flatten).length : Int) = n - 0 := by
      rw [hdrop, hn]
      simp
    rw [getBytesLoop_exact n chunks' buf' 0 [] h3 (le_refl 0) hpos hlen]
    dsimp only
    have hres : [] ++ buf' ++ chunks'.flatten = body := by simpa using hdrop
    rw [hres]
    have : (body.isEmpty) = false := by simpa using hb
    rw [this]
    simp

/-- Witness for C3: the packet `Size: 5\n\nhello` delivered in three chunks
split mid-header and mid-body. -/
theorem packet_get_chunk_invariant_witness :
    PacketHandler.get [ascii "Size: 5\n", ascii "\nhe", ascii "llo"] =
      .ok ([(ascii "Size", PyVal.int 5)], some (ascii "hello")) := by
  have := packet_get_chunk_invariant (ascii "Size: 5") (ascii "hello")
    [(ascii "Size", PyVal.int 5)] 5 [ascii "Size: 5\n", ascii "\nhe", ascii "llo"]
    (by decide) (by decide) (by decide) (by decide) (by decide) (by decide)
  simpa using this

/-- C5: if the socket delivers zero bytes (the chunk list is exhausted or an
empty chunk arrives) before the header terminator `\n\n` has appeared, or
before the full `Size` body bytes have arrived, `PacketHandler.get` raises
`SocketClosedError` and returns no partial packet. -/
theorem packet_get_closed_socket (chunks : List Bytes) :
    (findSub [NL, NL] chunks.flatten = none →
      PacketHandler.get chunks = .error .socketClosed) ∧
    (∀ hdr body h n, chunks.flatten = hdr ++ NL :: NL :: body →
      findSub [NL, NL] (hdr ++ [NL]) = none →
      decodeHeaderBlock hdr = .ok h → sizeVal h = .ok n →
      [] ∉ chunks → (body.length : Int) < n →
      PacketHandler.get chunks = .error .socketClosed) := by
  constructor
  · intro hno
    unfold PacketHandler.get getHeaders
    rw [getHeadersLoop_none chunks [] (by simpa using hno)]
  · intro hdr body h n hsplit hnoterm hdec hsize hne hlt
    have htot : findSub [NL, NL] ([] ++ chunks.flatten) = some hdr.length := by
      rw [List.nil_append, hsplit]
      exact findSub_boundary hdr body hnoterm
    obtain ⟨buf', chunks', h1, h2, h3⟩ := getHeadersLoop_found chunks [] hdr.length hne htot
    have htake : ([] ++ chunks.flatten).take hdr.length = hdr := by
      rw [List.nil_append, hsplit, List.take_append_of_le_length (Nat.le_refl _),
        List.take_length]
    have hdrop : buf' ++ chunks'.flatten = body := by
      rw [h2, List.nil_append, hsplit, List.drop_append 2]
      rfl
    have hgh : getHeaders chunks [] = .ok (h, buf', chunks') := by
      unfold getHeaders
      rw [h1, htake]
      dsimp only
      rw [hdec]
    unfold PacketHandler.get
    rw [hgh]
    dsimp only
    rw [hsize]
    dsimp only
    rw [getBytesLoop_short n chunks' buf' 0 [] h3 (le_refl 0)
      (by rw [hdrop]; omega)]

/-- Witness for C5: a packet cut off before the terminator, and one cut off
with only 2 of its 5 body bytes delivered. -/
theorem packet_get_closed_socket_witness :
    PacketHandler.get [ascii "Size: 5\n"] = .error .socketClosed ∧
    PacketHandler.get [ascii "Size: 5\n\nab"] = .error .socketClosed := by
  constructor
  · exact (packet_get_closed_socket [ascii "Size: 5\n"]).1 (by decide)
  · exact (packet_get_closed_socket [ascii "Size: 5\n\nab"]).2 (ascii "Size: 5")
      (ascii "ab") [(ascii "Size", PyVal.int 5)] 5
      (by decide) (by decide) (by decide) (by decide) (by decide) (by decide)

/-- C4: when `Patcher.patch` reaches a removed-tagged or context-tagged diff
line whose content differs from the next original line, it raises
`MalformedDiff` and the whole application aborts: whatever hunks or lines
follow (`brest`, `post`) are never applied and no best-effort result is
produced. -/
theorem patch_mismatch_aborts (original : Bytes) (diff : List Bytes)
    (pre : List (List Bytes)) (header : Bytes) (bpre brest : List Bytes)
    (l : Bytes) (post : List (List Bytes)) (body : List Bytes)
    (f f2 fc : PFile) (lineNo lineNo2 : Int) (out out2 outc : Bytes) (start : Int)
    (hd : getHunks diff = pre ++ (header :: body) :: post)
    (hpre : patchHunks ⟨original, 0⟩ 1 [] pre = .ok (f, lineNo, out))
    (hst : parseStart header = .ok start)
    (hc : copyLoop f out (start - lineNo).toNat = (fc, outc))
    (hbody : body = bpre ++ l :: brest)
    (hlines : processHunkLines fc (if lineNo < start then start else lineNo) outc bpre =
      .ok (f2, lineNo2, out2))
    (htag : startsWithB l [DASH] = true ∨
      (startsWithB l [DASH] = false ∧ startsWithB l [SP] = true))
    (hmis : (f2.readline).1 ≠ l.drop 1) :
    Patcher.patch original diff = .error .malformedDiff := by
  have hstep : processHunkLines f2 lineNo2 out2 (l :: brest) = .error .malformedDiff := by
    rw [processHunkLines]
    rcases htag with h | ⟨hdash, hsp⟩
    · rw [if_pos h]
      rcases hr : f2.readline with ⟨orig, f2'⟩
      rw [hr] at hmis
      dsimp only
      rw [if_pos hmis]
    · rw [if_neg (by simp [hdash]), if_pos hsp]
      rcases hr : f2.readline with ⟨orig, f2'⟩
      rw [hr] at hmis
      dsimp only
      rw [if_pos hmis]
  have hhunk : processHunk f lineNo out (header :: body) = .error .malformedDiff := by
    rw [processHunk]
    dsimp only
    rw [hst]
    show (match copyLoop f out (start - lineNo).toNat with
      | (f', out') =>
        processHunkLines f' (if lineNo < start then start else lineNo) out' body) = _
    rw [hc]
    dsimp only
    rw [hbody, processHunkLines_append, hlines]
    exact hstep
  rw [Patcher.patch, hd, patchHunks_append, hpre]
  dsimp only
  rw [patchHunks, hhunk]
  rfl

/-- Witness for C4: a one-hunk diff whose removed line `-X` does not match
the original line `a`. -/
theorem patch_mismatch_aborts_witness :
    Patcher.patch (ascii "a\n") [ascii "@@ -1 +1 @@\n", ascii "-X\n"] =
      .error .malformedDiff := by
  apply patch_mismatch_aborts (ascii "a\n") [ascii "@@ -1 +1 @@\n", ascii "-X\n"]
    [] (ascii "@@ -1 +1 @@\n") [] [] (ascii "-X\n") [] [ascii "-X\n"]
    ⟨ascii "a\n", 0⟩ ⟨ascii "a\n", 0⟩ ⟨ascii "a\n", 0⟩ 1 1 [] [] [] 1
  · decide
  · decide
  · decide
  · decide
  · decide
  · decide
  · decide
  · decide

/-- C2 (counterexample): the header codec round trip fails for a name with
an embedded colon: encoding `{'a:b': 'x'}` and decoding yields
`{'a': 'b: x'}` (the name is never quoted, and decoding splits at the first
colon). -/
theorem header_codec_colon_name_counterexample :
    encodeThenDecode [(ascii "a:b", .str (ascii "x"))] =
      .ok [(ascii "a", .str (ascii "b: x"))] ∧
    [(ascii "a", PyVal.str (ascii "b: x"))] ≠
      [(ascii "a:b", PyVal.str (ascii "x"))] := by decide

set_option maxRecDepth 1000000 in
/-- C7 (counterexample): with 25 two-byte lines and the tenth replaced, the
serialized diff is exactly as long as the edited content (52 bytes each),
yet `send_diff` returns `True` and sends the diff — the decision uses a
strict `>`, so "equal length" does not fall back to the full file. -/
theorem send_diff_equal_length_counterexample :
    (sendDiffBytes ((List.range 25).map (fun i => [97 + i, 10]))
        ((List.range 25).map (fun i => if i = 9 then [48, 10] else [97 + i, 10]))).length =
      editedLength ((List.range 25).map (fun i => if i = 9 then [48, 10] else [97 + i, 10])) ∧
    sendDiffDecision ((List.range 25).map (fun i => [97 + i, 10]))
        ((List.range 25).map (fun i => if i = 9 then [48, 10] else [97 + i, 10])) = true := by
  decide

/-- C7 (amended): `send_diff` returns `False` (sending the full file
instead) exactly when the serialized diff is strictly longer than the edited
content's length; at equal lengths the diff is still sent. -/
theorem send_diff_decision_strict (O E : List Line) :
    sendDiffDecision O E = false ↔ (sendDiffBytes O E).length > editedLength E := by
  unfold sendDiffDecision
  split
  · next h => simpa using h
  · next h => simpa using h

/-- C10: `PacketHandler.send` overwrites the caller's mapping: afterwards
`headers['Size']` is the exact byte length of the contents (0 for `None`),
any caller-supplied `Size` entry is overwritten, and every other entry is
unchanged. -/
theorem send_sets_size_header (headers : Headers) (contents : Option Bytes) :
    dictGet (sendSetSize headers contents) (ascii "Size") =
      some (.int (match contents with | none => 0 | some c => (c.length : Int))) ∧
    ∀ k, k ≠ ascii "Size" →
      dictGet (sendSetSize headers contents) k = dictGet headers k := by
  cases contents with
  | none =>
    exact ⟨dictGet_dictInsert_self .., fun k hk => dictGet_dictInsert_other _ _ _ _ hk⟩
  | some c =>
    exact ⟨dictGet_dictInsert_self .., fun k hk => dictGet_dictInsert_other _ _ _ _ hk⟩

/-- Witness for C10 at a concrete mapping with a stale `Size` entry. -/
theorem send_sets_size_header_witness :
    dictGet (sendSetSize [(ascii "Other", .int 7), (ascii "Size", .int 99)]
      (some (ascii "hello"))) (ascii "Size") = some (.int 5) ∧
    dictGet (sendSetSize [(ascii "Other", .int 7), (ascii "Size", .int 99)]
      (some (ascii "hello"))) (ascii "Other") = some (.int 7) := by
  have h := send_sets_size_header [(ascii "Other", .int 7), (ascii "Size", .int 99)]
    (some (ascii "hello"))
  refine ⟨?_, ?_⟩
  · rw [h.1]; decide
  · rw [h.2 (ascii "Other") (by decide)]; decide

set_option maxRecDepth 1000000 in
/-- C1 (code bug): the diff/patch round trip fails on a line with an embedded
carriage return. For the one-line original `a\rb\n` edited to `c\n`,
`send_diff` serializes the unified diff (whose removed line is `-a\rb\n`), the
receiving side re-splits the bytes with `splitlines(keepends=True)` — which
also breaks at the `\r` — and `Patcher.patch` then raises `MalformedDiff`
instead of returning the edited content `c\n`. -/
theorem diff_patch_round_trip_cr :
    diffPatchRoundTrip [[97, 13, 98, 10]] [[99, 10]] = .error .malformedDiff ∧
    diffPatchRoundTrip [[97, 13, 98, 10]] [[99, 10]] ≠
      .ok (([[99, 10]] : List Line).flatten) := by
  refine ⟨?_, ?_⟩ <;> decide

end Sshed
